import Mathlib

/-!
Verification development for the multi-process parallel trainer of the skrl
repository, source file `skrl/trainers/torch/parallel.py`.

Modelling conventions (shallow embedding):
  * a batched tensor is a list of rows (one row per environment instance);
  * a Python slice `x[a:b]` is `sliceT x (a, b)`;
  * the Agent is an oracle: only `act` returns data the trainer consumes, the
    other agent methods are recorded as events of a trace;
  * the Environment is an oracle indexed by call count / timestep;
  * one iteration of the worker's command-dispatch loop (`fn_processor`,
    lines 36-96) is the function `fn_dispatch`: it receives the message, the
    current contents of the worker's data queue and the worker-local state,
    and returns the new local state, the emitted call/barrier events, the
    items put back on the queue and the loop-exit flag;
  * the coordinator loops of `ParallelTrainer.train` / `ParallelTrainer.eval`
    are `trainRun` / `evalRun`; they return `none` when some worker would
    crash (wrong queue contents or a method call on a `None` agent);
  * the cross-process message protocol itself (pipes, the (N+1)-party
    barrier) is additionally given a small-step interleaving semantics
    (`PStep`) further below, used for the phase-ordering claims.
-/

namespace SkrlParallel

/-- Python slice `x[a:b]` on a list of rows: drop the first `a` rows and keep
the next `b - a` of the remainder. -/
def sliceT {γ : Type} (l : List γ) (scope : Nat × Nat) : List γ :=
  (l.drop scope.1).take (scope.2 - scope.1)

/-- Oracle model of an Agent (`skrl.agents.torch.Agent`): `actFn` is the
first component of `agent.act(states, timestep, timesteps)`.  The remaining
agent methods have no result the trainer reads, so they appear only as trace
events. -/
structure AgentM (σ β : Type) where
  actFn : List σ → Nat → Nat → List β

/-- Oracle model of the environment wrapper: `resetFn k` is the states tensor
returned by the `k`-th call of `env.reset()`, and `stepFn t actions` is the
`(next_states, rewards, dones, infos)` tuple returned by `env.step(actions)`
at loop timestep `t`. -/
structure EnvM (σ β ρ ι : Type) where
  resetFn : Nat → List σ
  stepFn : Nat → List β → List σ × List ρ × List Bool × ι

/-- Trace events of one `train()` / `eval()` run.  Worker-side agent calls
carry the exact tensors that are passed to the agent; `baseRecordTransition`
and `basePostInteraction` stand for the `super(type(agent), agent)` calls of
lines 87 and 95, i.e. the non-learning base-class variants. -/
inductive Ev (σ β ρ ι : Type)
  | mkBarrier (parties : Nat)
  | mkPipe (w : Nat)
  | mkQueue (w : Nat)
  | spawn (w : Nat)
  | coordBarrier
  | workerBarrier (w : Nat)
  | mainAgentInit
  | singleAgentTrain
  | singleAgentEval
  | agentInit (w : Nat)
  | preInteraction (w t : Nat)
  | agentAct (w t : Nat) (states : List σ)
  | recordTransition (w t : Nat) (states : Option (List σ)) (actions : Option (List β))
      (rewards : List ρ) (nextStates : List σ) (dones : List Bool) (infos : ι)
  | baseRecordTransition (w t : Nat) (states : Option (List σ)) (actions : Option (List β))
      (rewards : List ρ) (nextStates : List σ) (dones : List Bool) (infos : ι)
  | postInteraction (w t : Nat)
  | basePostInteraction (w t : Nat)
  | envReset
  | envStep (t : Nat) (actions : List β)
  | envRender
  | envClose
  | sendTerminate (w : Nat)
  | joinProcess (w : Nat)
deriving DecidableEq

/-- A control message sent over a worker's command pipe: the source sends
dictionaries `{"task": ..., "timestep": ..., "timesteps": ...}` where the
`task` field is an arbitrary string. -/
structure Msg where
  task : String
  timestep : Nat
  timesteps : Nat
deriving DecidableEq

/-- One item of a worker's bulk-data queue (`mp.Queue` holds arbitrary Python
objects; the protocol only ever transfers these five shapes). -/
inductive QVal (σ β ρ ι : Type)
  | qAgent (a : AgentM σ β)
  | qStates (s : List σ)
  | qActions (a : List β)
  | qRewards (r : List ρ)
  | qDones (d : List Bool)
  | qInfos (i : ι)

/-- Worker-local state of `fn_processor`: `agent`, `_states`, `_actions`
(lines 29-31), all initialized to `None`. -/
structure Worker (σ β : Type) where
  agent : Option (AgentM σ β)
  cachedStates : Option (List σ)
  cachedActions : Option (List β)

/-- Worker-local state at process start (lines 29-31). -/
def initialWorker {σ β : Type} : Worker σ β := ⟨none, none, none⟩

def termTask : String := "terminate"

def initTask : String := "init"

def preTask : String := "pre_interaction"

def actTask : String := "act"

def recTask : String := "record_transition"

def postTask : String := "post_interaction"

def evalTask : String := "eval-record_transition-post_interaction"

/-- The seven task strings recognized by the dispatch loop of
`fn_processor`. -/
def recognizedTasks : List String :=
  [termTask, initTask, preTask, actTask, recTask, postTask, evalTask]

/-- One iteration of the worker dispatch loop, `fn_processor` lines 36-96.
Input: the worker's scope, its process index, the received message, the
current FIFO contents of its data queue, and its local state.  Output:
`some (new local state, events, queue puts, exit flag)`, or `none` when the
Python original would fault (queue item of the wrong shape for the branch, or
a method call on the still-`None` agent). -/
def fn_dispatch {σ β ρ ι : Type} (scope : Nat × Nat) (widx : Nat) (msg : Msg)
    (queue : List (QVal σ β ρ ι)) (w : Worker σ β) :
    Option (Worker σ β × List (Ev σ β ρ ι) × List (QVal σ β ρ ι) × Bool) :=
  if msg.task == termTask then
    -- lines 41-42: break out of the loop; no barrier wait
    some (w, [], [], true)
  else if msg.task == initTask then
    -- lines 45-49: agent = queue.get(); agent.init(); barrier.wait()
    match queue with
    | QVal.qAgent a :: _ =>
        some (⟨some a, w.cachedStates, w.cachedActions⟩,
          [Ev.agentInit widx, Ev.workerBarrier widx], [], false)
    | _ => none
  else if msg.task == preTask then
    -- lines 52-54: agent.pre_interaction(...); barrier.wait()
    match w.agent with
    | some _ =>
        some (w, [Ev.preInteraction widx msg.timestep, Ev.workerBarrier widx], [], false)
    | none => none
  else if msg.task == actTask then
    -- lines 57-64: _states = queue.get()[scope[0]:scope[1]];
    -- _actions = agent.act(_states, ...)[0]; queue.put(_actions); barrier.wait()
    match queue, w.agent with
    | QVal.qStates s :: _, some a =>
        let st := sliceT s scope
        let acts := a.actFn st msg.timestep msg.timesteps
        some (⟨some a, some st, some acts⟩,
          [Ev.agentAct widx msg.timestep st, Ev.workerBarrier widx],
          [QVal.qActions acts], false)
    | _, _ => none
  else if msg.task == recTask then
    -- lines 67-77: agent.record_transition(states=_states, actions=_actions,
    -- rewards=queue.get()[scope...], next_states=queue.get()[scope...],
    -- dones=queue.get()[scope...], infos=queue.get(), ...); barrier.wait()
    match queue, w.agent with
    | QVal.qRewards r :: QVal.qStates ns :: QVal.qDones d :: QVal.qInfos i :: _, some _ =>
        some (w,
          [Ev.recordTransition widx msg.timestep w.cachedStates w.cachedActions
            (sliceT r scope) (sliceT ns scope) (sliceT d scope) i,
           Ev.workerBarrier widx], [], false)
    | _, _ => none
  else if msg.task == postTask then
    -- lines 80-82: agent.post_interaction(...); barrier.wait()
    match w.agent with
    | some _ =>
        some (w, [Ev.postInteraction widx msg.timestep, Ev.workerBarrier widx], [], false)
    | none => none
  else if msg.task == evalTask then
    -- lines 85-96: super(type(agent), agent).record_transition(...) with the
    -- same slicing as record_transition, then
    -- super(type(agent), agent).post_interaction(...); barrier.wait()
    match queue, w.agent with
    | QVal.qRewards r :: QVal.qStates ns :: QVal.qDones d :: QVal.qInfos i :: _, some _ =>
        some (w,
          [Ev.baseRecordTransition widx msg.timestep w.cachedStates w.cachedActions
            (sliceT r scope) (sliceT ns scope) (sliceT d scope) i,
           Ev.basePostInteraction widx msg.timestep,
           Ev.workerBarrier widx], [], false)
    | _, _ => none
  else
    -- the if/elif chain of lines 41-96 has no final else: an unrecognized
    -- task is silently skipped and the loop returns to pipe.recv()
    some (w, [], [], false)

/-- Coordinator-side view of one command phase: send `msg` to every worker
(in worker-index order, starting at index `widx`), handing each worker the
queue contents `q`, and let every worker run one dispatch-loop iteration.
Returns the new worker states, the concatenated worker events and the
contents each worker left on its queue.  This is the lock-step composition of
the coordinator `for pipe, queue in zip(...)` send loops with the workers'
`fn_processor` iterations; it is justified by the barrier that closes every
phase (see the small-step protocol model below). -/
def runPhase {σ β ρ ι : Type} (msg : Msg) :
    Nat → List (Nat × Nat) → List (List (QVal σ β ρ ι)) → List (Worker σ β) →
    Option (List (Worker σ β) × List (Ev σ β ρ ι) × List (List (QVal σ β ρ ι)))
  | _, [], [], [] => some ([], [], [])
  | widx, sc :: scs, q :: qs, w :: ws => do
      let (w', evs, puts, _ex) ← fn_dispatch sc widx msg q w
      let (ws', evs', outs) ← runPhase msg (widx + 1) scs qs ws
      some (w' :: ws', evs ++ evs', puts :: outs)
  | _, _, _, _ => none

/-- Coordinator side of the act phase, line 201:
`actions = torch.vstack([queue.get() for queue in queues])` — pop one actions
tensor from each queue in worker-index order and concatenate the rows. -/
def collectActions {σ β ρ ι : Type} :
    List (List (QVal σ β ρ ι)) → Option (List β)
  | [] => some []
  | (QVal.qActions a :: _) :: rest => (collectActions rest).map (fun r => a ++ r)
  | _ => none

/-- Coordinator loop state: the worker processes' local states, the current
full-batch `states` tensor, and the number of `env.reset()` calls made so
far. -/
structure LoopState (σ β : Type) where
  workers : List (Worker σ β)
  states : List σ
  resets : Nat

/-- One iteration of the `train()` timestep loop, lines 187-239. -/
def trainTimestep {σ β ρ ι : Type} (scopes : List (Nat × Nat)) (env : EnvM σ β ρ ι)
    (timesteps : Nat) (headless : Bool) (ls : LoopState σ β) (t : Nat) :
    Option (LoopState σ β × List (Ev σ β ρ ι)) := do
  -- pre-interaction, lines 189-192
  let (ws1, preEvs, _) ← runPhase ⟨preTask, t, timesteps⟩ 0 scopes
    (scopes.map fun _ => []) ls.workers
  -- compute actions, lines 194-201: send "act", put the full states tensor
  -- on every queue, barrier, then vstack the per-worker results
  let (ws2, actEvs, outQs) ← runPhase ⟨actTask, t, timesteps⟩ 0 scopes
    (scopes.map fun _ => [QVal.qStates ls.states]) ws1
  let actions ← collectActions outQs
  -- step the environments, line 204
  let (ns, rw, dn, infos) := env.stepFn t actions
  -- render scene, lines 206-208
  let renderEvs : List (Ev σ β ρ ι) := if headless then [] else [Ev.envRender]
  -- record the transitions, lines 210-225: put rewards, next_states, dones,
  -- infos (in this order) on every queue
  let (ws3, recEvs, _) ← runPhase ⟨recTask, t, timesteps⟩ 0 scopes
    (scopes.map fun _ =>
      [QVal.qRewards rw, QVal.qStates ns, QVal.qDones dn, QVal.qInfos infos]) ws2
  -- post-interaction, lines 227-230
  let (ws4, postEvs, _) ← runPhase ⟨postTask, t, timesteps⟩ 0 scopes
    (scopes.map fun _ => []) ws3
  -- reset environments, lines 232-239
  let (states', resets', resetEvs) :=
    if dn.any id then (env.resetFn ls.resets, ls.resets + 1, [Ev.envReset])
    else (ns, ls.resets, ([] : List (Ev σ β ρ ι)))
  some (⟨ws4, states', resets'⟩,
    preEvs ++ Ev.coordBarrier :: actEvs ++ Ev.coordBarrier :: Ev.envStep t actions ::
      renderEvs ++ recEvs ++ Ev.coordBarrier :: postEvs ++ Ev.coordBarrier :: resetEvs)

/-- One iteration of the `eval()` timestep loop, lines 312-355: no
pre-interaction phase, and recording plus post-interaction are merged into
the single `eval-record_transition-post_interaction` command. -/
def evalTimestep {σ β ρ ι : Type} (scopes : List (Nat × Nat)) (env : EnvM σ β ρ ι)
    (timesteps : Nat) (headless : Bool) (ls : LoopState σ β) (t : Nat) :
    Option (LoopState σ β × List (Ev σ β ρ ι)) := do
  -- compute actions, lines 314-321
  let (ws1, actEvs, outQs) ← runPhase ⟨actTask, t, timesteps⟩ 0 scopes
    (scopes.map fun _ => [QVal.qStates ls.states]) ls.workers
  let actions ← collectActions outQs
  -- step the environments, line 324
  let (ns, rw, dn, infos) := env.stepFn t actions
  -- render scene, lines 326-328
  let renderEvs : List (Ev σ β ρ ι) := if headless then [] else [Ev.envRender]
  -- merged record + post phase, lines 330-347
  let (ws2, recEvs, _) ← runPhase ⟨evalTask, t, timesteps⟩ 0 scopes
    (scopes.map fun _ =>
      [QVal.qRewards rw, QVal.qStates ns, QVal.qDones dn, QVal.qInfos infos]) ws1
  -- reset environments, lines 349-355
  let (states', resets', resetEvs) :=
    if dn.any id then (env.resetFn ls.resets, ls.resets + 1, [Ev.envReset])
    else (ns, ls.resets, ([] : List (Ev σ β ρ ι)))
  some (⟨ws2, states', resets'⟩,
    actEvs ++ Ev.coordBarrier :: Ev.envStep t actions ::
      renderEvs ++ recEvs ++ Ev.coordBarrier :: resetEvs)

/-- The timestep loop `for timestep in range(initial_timestep, timesteps)`:
`k` iterations remain and `t` is the current timestep. -/
def runLoop {σ β ρ ι : Type}
    (body : LoopState σ β → Nat → Option (LoopState σ β × List (Ev σ β ρ ι))) :
    Nat → Nat → LoopState σ β → Option (LoopState σ β × List (Ev σ β ρ ι))
  | 0, _, ls => some (ls, [])
  | k + 1, t, ls => do
      let (ls', evs) ← body ls t
      let (ls'', evs') ← runLoop body k (t + 1) ls'
      some (ls'', evs ++ evs')

/-- Bootstrap events of the multi-agent path, lines 144-174 (and 268-299):
one (n+1)-party barrier, one pipe pair and one queue per agent, `n` spawned
worker processes, then the coordinator's `barrier.wait()`. -/
def bootstrapEvs {σ β ρ ι : Type} (n : Nat) : List (Ev σ β ρ ι) :=
  Ev.mkBarrier (n + 1) :: ((List.range n).flatMap fun i => [Ev.mkPipe i, Ev.mkQueue i])
    ++ (List.range n).map Ev.spawn ++ [Ev.coordBarrier]

/-- Teardown events of both runs, lines 241-250 (and 357-366): send
`terminate` to every worker, join every worker process, close the
environment. -/
def teardownEvs {σ β ρ ι : Type} (n : Nat) : List (Ev σ β ρ ι) :=
  (List.range n).map Ev.sendTerminate ++ (List.range n).map Ev.joinProcess ++ [Ev.envClose]

/-- `ParallelTrainer.train`, lines 125-250.  Returns the trace of the run, or
`none` when a worker iteration would fault. -/
def trainRun {σ β ρ ι : Type} (agents : List (AgentM σ β)) (scopes : List (Nat × Nat))
    (env : EnvM σ β ρ ι) (initialTimestep timesteps : Nat) (headless : Bool) :
    Option (List (Ev σ β ρ ι)) :=
  if agents.length = 1 then
    -- single agent, lines 138-142: agents.init(); single_agent_train(); return
    some [Ev.mainAgentInit, Ev.singleAgentTrain]
  else do
    let n := agents.length
    -- initialize agents, lines 176-180: send "init" and put the agent on the
    -- worker's queue, then barrier
    let (ws, initEvs, _) ← runPhase ⟨initTask, 0, 0⟩ 0 scopes
      (agents.map fun a => [QVal.qAgent a]) (List.replicate n initialWorker)
    -- reset env, lines 182-185
    let states := env.resetFn 0
    -- timestep loop, lines 187-239
    let (_, loopEvs) ← runLoop (trainTimestep scopes env timesteps headless)
      (timesteps - initialTimestep) initialTimestep ⟨ws, states, 1⟩
    some (bootstrapEvs n ++ initEvs ++ Ev.coordBarrier :: Ev.envReset :: loopEvs
      ++ teardownEvs n)

/-- `ParallelTrainer.eval`, lines 252-366. -/
def evalRun {σ β ρ ι : Type} (agents : List (AgentM σ β)) (scopes : List (Nat × Nat))
    (env : EnvM σ β ρ ι) (initialTimestep timesteps : Nat) (headless : Bool) :
    Option (List (Ev σ β ρ ι)) :=
  if agents.length = 1 then
    -- single agent, lines 262-266: agents.init(); single_agent_eval(); return
    some [Ev.mainAgentInit, Ev.singleAgentEval]
  else do
    let n := agents.length
    let (ws, initEvs, _) ← runPhase ⟨initTask, 0, 0⟩ 0 scopes
      (agents.map fun a => [QVal.qAgent a]) (List.replicate n initialWorker)
    let states := env.resetFn 0
    let (_, loopEvs) ← runLoop (evalTimestep scopes env timesteps headless)
      (timesteps - initialTimestep) initialTimestep ⟨ws, states, 1⟩
    some (bootstrapEvs n ++ initEvs ++ Ev.coordBarrier :: Ev.envReset :: loopEvs
      ++ teardownEvs n)

/-! ### Derived characterizations of the phases

The following definitions give the value each phase computes in a successful
run; they are proved equal to the operational definitions above and are the
vocabulary of the claim statements. -/

/-- The worker list right after the init phase: worker `i` owns agent `i`,
both caches still `None`. -/
def initedWorkers {σ β : Type} (agents : List (AgentM σ β)) : List (Worker σ β) :=
  agents.map fun a => ⟨some a, none, none⟩

/-- Worker `i` owns exactly agent `i` (established by the init phase and
preserved by every later phase). -/
def HasAgents {σ β : Type} (agents : List (AgentM σ β)) (workers : List (Worker σ β)) : Prop :=
  List.Forall₂ (fun a w => w.agent = some a) agents workers

/-- Worker events of the init phase for `n` workers starting at index `k`. -/
def initEvsFrom (σ β ρ ι : Type) : Nat → Nat → List (Ev σ β ρ ι)
  | _, 0 => []
  | k, n + 1 => Ev.agentInit k :: Ev.workerBarrier k :: initEvsFrom σ β ρ ι (k + 1) n

/-- Worker events of the pre-interaction phase at timestep `t`. -/
def preEvsFrom (σ β ρ ι : Type) (t : Nat) : Nat → Nat → List (Ev σ β ρ ι)
  | _, 0 => []
  | k, n + 1 => Ev.preInteraction k t :: Ev.workerBarrier k :: preEvsFrom σ β ρ ι t (k + 1) n

/-- Worker events of the post-interaction phase at timestep `t`. -/
def postEvsFrom (σ β ρ ι : Type) (t : Nat) : Nat → Nat → List (Ev σ β ρ ι)
  | _, 0 => []
  | k, n + 1 => Ev.postInteraction k t :: Ev.workerBarrier k :: postEvsFrom σ β ρ ι t (k + 1) n

/-- The action slice worker `p` (agent paired with its scope) computes at the
act phase: its agent applied to its scope's rows of the full `states`. -/
def actSlice {σ β : Type} (S : List σ) (t T : Nat) (p : AgentM σ β × (Nat × Nat)) : List β :=
  p.1.actFn (sliceT S p.2) t T

/-- Worker states after the act phase: each worker caches its states slice
and its action slice (lines 58-60). -/
def actedWorkers {σ β : Type} (S : List σ) (t T : Nat)
    (ps : List (AgentM σ β × (Nat × Nat))) : List (Worker σ β) :=
  ps.map fun p => ⟨some p.1, some (sliceT S p.2), some (actSlice S t T p)⟩

/-- Worker events of the act phase. -/
def actEvsFrom (ρ ι : Type) {σ β : Type} (S : List σ) (t T : Nat) :
    Nat → List (AgentM σ β × (Nat × Nat)) → List (Ev σ β ρ ι)
  | _, [] => []
  | k, p :: rest =>
      Ev.agentAct k t (sliceT S p.2) :: Ev.workerBarrier k ::
        actEvsFrom ρ ι S t T (k + 1) rest

/-- Queue contents left by the act phase: one action slice per worker. -/
def actOuts (ρ ι : Type) {σ β : Type} (S : List σ) (t T : Nat)
    (ps : List (AgentM σ β × (Nat × Nat))) : List (List (QVal σ β ρ ι)) :=
  ps.map fun p => [QVal.qActions (actSlice S t T p)]

/-- The full-batch actions tensor of one timestep: the vertical concatenation
(`torch.vstack`, line 201) of the per-worker action slices in worker-index
order. -/
def vstackActions {σ β : Type} (S : List σ) (t T : Nat)
    (ps : List (AgentM σ β × (Nat × Nat))) : List β :=
  (ps.map (actSlice S t T)).flatten

/-- Worker events of the record-transition phase (each worker paired with its
scope): cached states and actions from the act phase, sliced rewards,
next-states and dones, the infos object whole. -/
def recEvsFrom {σ β : Type} (ρ ι : Type) (t : Nat) (rw : List ρ) (ns : List σ)
    (dn : List Bool) (infos : ι) :
    Nat → List (Worker σ β × (Nat × Nat)) → List (Ev σ β ρ ι)
  | _, [] => []
  | k, p :: rest =>
      Ev.recordTransition k t p.1.cachedStates p.1.cachedActions
          (sliceT rw p.2) (sliceT ns p.2) (sliceT dn p.2) infos ::
        Ev.workerBarrier k :: recEvsFrom ρ ι t rw ns dn infos (k + 1) rest

/-- Worker events of the merged evaluation record + post phase: the base
class (non-learning) record and post calls. -/
def evalEvsFrom {σ β : Type} (ρ ι : Type) (t : Nat) (rw : List ρ) (ns : List σ)
    (dn : List Bool) (infos : ι) :
    Nat → List (Worker σ β × (Nat × Nat)) → List (Ev σ β ρ ι)
  | _, [] => []
  | k, p :: rest =>
      Ev.baseRecordTransition k t p.1.cachedStates p.1.cachedActions
          (sliceT rw p.2) (sliceT ns p.2) (sliceT dn p.2) infos ::
        Ev.basePostInteraction k t :: Ev.workerBarrier k ::
        evalEvsFrom ρ ι t rw ns dn infos (k + 1) rest

/-! ### Branch equations for `fn_dispatch` -/

/-- Dispatch on `terminate`: exit at once, no event, no barrier wait, local
state untouched. -/
theorem fn_dispatch_term {σ β ρ ι : Type} (scope : Nat × Nat) (widx t T : Nat)
    (q : List (QVal σ β ρ ι)) (w : Worker σ β) :
    fn_dispatch scope widx ⟨termTask, t, T⟩ q w = some (w, [], [], true) := rfl

/-- Dispatch on `init`: adopt the agent from the queue. -/
theorem fn_dispatch_init {σ β ρ ι : Type} (scope : Nat × Nat) (widx t T : Nat)
    (a : AgentM σ β) (rest : List (QVal σ β ρ ι)) (ag : Option (AgentM σ β))
    (cs : Option (List σ)) (ca : Option (List β)) :
    fn_dispatch scope widx ⟨initTask, t, T⟩ (QVal.qAgent a :: rest) ⟨ag, cs, ca⟩ =
      some (⟨some a, cs, ca⟩, [Ev.agentInit widx, Ev.workerBarrier widx], [], false) := rfl

/-- Dispatch on `pre_interaction`. -/
theorem fn_dispatch_pre {σ β ρ ι : Type} (scope : Nat × Nat) (widx t T : Nat)
    (q : List (QVal σ β ρ ι)) (a : AgentM σ β) (cs : Option (List σ)) (ca : Option (List β)) :
    fn_dispatch scope widx ⟨preTask, t, T⟩ q ⟨some a, cs, ca⟩ =
      some (⟨some a, cs, ca⟩, [Ev.preInteraction widx t, Ev.workerBarrier widx], [], false) := rfl

/-- Dispatch on `act`: slice the received full states to the own scope, run
the agent on the slice, cache both, return the action slice on the queue. -/
theorem fn_dispatch_act {σ β ρ ι : Type} (scope : Nat × Nat) (widx t T : Nat)
    (s : List σ) (rest : List (QVal σ β ρ ι)) (a : AgentM σ β)
    (cs : Option (List σ)) (ca : Option (List β)) :
    fn_dispatch scope widx ⟨actTask, t, T⟩ (QVal.qStates s :: rest) ⟨some a, cs, ca⟩ =
      some (⟨some a, some (sliceT s scope), some (a.actFn (sliceT s scope) t T)⟩,
        [Ev.agentAct widx t (sliceT s scope), Ev.workerBarrier widx],
        [QVal.qActions (a.actFn (sliceT s scope) t T)], false) := rfl

/-- Dispatch on `record_transition`: slice rewards, next states and dones,
pass infos whole, supply the cached states and actions. -/
theorem fn_dispatch_rec {σ β ρ ι : Type} (scope : Nat × Nat) (widx t T : Nat)
    (r : List ρ) (ns : List σ) (d : List Bool) (i : ι) (rest : List (QVal σ β ρ ι))
    (a : AgentM σ β) (cs : Option (List σ)) (ca : Option (List β)) :
    fn_dispatch scope widx ⟨recTask, t, T⟩
        (QVal.qRewards r :: QVal.qStates ns :: QVal.qDones d :: QVal.qInfos i :: rest)
        ⟨some a, cs, ca⟩ =
      some (⟨some a, cs, ca⟩,
        [Ev.recordTransition widx t cs ca (sliceT r scope) (sliceT ns scope) (sliceT d scope) i,
         Ev.workerBarrier widx], [], false) := rfl

/-- Dispatch on `post_interaction`. -/
theorem fn_dispatch_post {σ β ρ ι : Type} (scope : Nat × Nat) (widx t T : Nat)
    (q : List (QVal σ β ρ ι)) (a : AgentM σ β) (cs : Option (List σ)) (ca : Option (List β)) :
    fn_dispatch scope widx ⟨postTask, t, T⟩ q ⟨some a, cs, ca⟩ =
      some (⟨some a, cs, ca⟩, [Ev.postInteraction widx t, Ev.workerBarrier widx], [], false) := rfl

/-- Dispatch on the merged evaluation command: base-class record with the
same slicing, then base-class post-interaction, then the barrier. -/
theorem fn_dispatch_eval {σ β ρ ι : Type} (scope : Nat × Nat) (widx t T : Nat)
    (r : List ρ) (ns : List σ) (d : List Bool) (i : ι) (rest : List (QVal σ β ρ ι))
    (a : AgentM σ β) (cs : Option (List σ)) (ca : Option (List β)) :
    fn_dispatch scope widx ⟨evalTask, t, T⟩
        (QVal.qRewards r :: QVal.qStates ns :: QVal.qDones d :: QVal.qInfos i :: rest)
        ⟨some a, cs, ca⟩ =
      some (⟨some a, cs, ca⟩,
        [Ev.baseRecordTransition widx t cs ca
           (sliceT r scope) (sliceT ns scope) (sliceT d scope) i,
         Ev.basePostInteraction widx t,
         Ev.workerBarrier widx], [], false) := rfl

/-! ### Phase computation lemmas for `runPhase` -/

/-- The init phase succeeds and hands agent `i` to worker `i`. -/
theorem runPhase_init {σ β ρ ι : Type} :
    ∀ (k : Nat) (agents : List (AgentM σ β)) (scopes : List (Nat × Nat)),
      agents.length = scopes.length →
      runPhase (ρ := ρ) (ι := ι) ⟨initTask, 0, 0⟩ k scopes
          (agents.map fun a => [QVal.qAgent a])
          (List.replicate agents.length initialWorker) =
        some (initedWorkers agents, initEvsFrom σ β ρ ι k agents.length,
          agents.map fun _ => [])
  | k, [], [], _ => rfl
  | k, a :: as, sc :: scs, hlen => by
      have ih := runPhase_init (ρ := ρ) (ι := ι) (k + 1) as scs (by simpa using hlen)
      simp only [initialWorker] at ih
      simp only [List.length_cons, List.map_cons, List.replicate_succ]
      simp only [runPhase, fn_dispatch_init, initialWorker, Option.bind_eq_bind,
        Option.some_bind, ih, initedWorkers, initEvsFrom, List.map_cons,
        List.cons_append, List.nil_append]

/-- The pre-interaction phase succeeds and leaves every worker unchanged. -/
theorem runPhase_pre {σ β ρ ι : Type} (t T : Nat) :
    ∀ (k : Nat) (agents : List (AgentM σ β)) (workers : List (Worker σ β))
      (scopes : List (Nat × Nat)),
      HasAgents agents workers →
      scopes.length = agents.length →
      runPhase (ρ := ρ) (ι := ι) ⟨preTask, t, T⟩ k scopes
          (scopes.map fun _ => []) workers =
        some (workers, preEvsFrom σ β ρ ι t k workers.length, scopes.map fun _ => []) := by
  intro k agents
  induction agents generalizing k with
  | nil =>
      intro workers scopes hag hlen
      cases hag
      cases scopes with
      | nil => rfl
      | cons _ _ => simp at hlen
  | cons a as ih =>
      intro workers scopes hag hlen
      cases hag with
      | cons hw hws =>
          rename_i w ws
          cases scopes with
          | nil => simp at hlen
          | cons sc scs =>
              obtain ⟨ag, cs, ca⟩ := w
              change ag = some a at hw
              subst hw
              have ihx := ih (k + 1) ws scs hws (by simpa using hlen)
              simp only [List.map_cons, List.length_cons, runPhase, fn_dispatch_pre,
                Option.bind_eq_bind, Option.some_bind, ihx, preEvsFrom,
                List.cons_append, List.nil_append]

/-- The act phase: worker `i` receives the full states tensor, slices it to
its scope, runs its agent, caches slice and result, and leaves the action
slice on its queue. -/
theorem runPhase_act {σ β ρ ι : Type} (S : List σ) (t T : Nat) :
    ∀ (k : Nat) (agents : List (AgentM σ β)) (workers : List (Worker σ β))
      (scopes : List (Nat × Nat)),
      HasAgents agents workers →
      scopes.length = agents.length →
      runPhase ⟨actTask, t, T⟩ k scopes
          (scopes.map fun _ => [QVal.qStates S]) workers =
        some (actedWorkers S t T (agents.zip scopes),
          actEvsFrom ρ ι S t T k (agents.zip scopes),
          actOuts ρ ι S t T (agents.zip scopes)) := by
  intro k agents
  induction agents generalizing k with
  | nil =>
      intro workers scopes hag hlen
      cases hag
      cases scopes with
      | nil => rfl
      | cons _ _ => simp at hlen
  | cons a as ih =>
      intro workers scopes hag hlen
      cases hag with
      | cons hw hws =>
          rename_i w ws
          cases scopes with
          | nil => simp at hlen
          | cons sc scs =>
              obtain ⟨ag, cs, ca⟩ := w
              change ag = some a at hw
              subst hw
              have ihx := ih (k + 1) ws scs hws (by simpa using hlen)
              simp only [List.map_cons, runPhase, fn_dispatch_act,
                Option.bind_eq_bind, Option.some_bind, ihx, List.zip_cons_cons,
                actedWorkers, actEvsFrom, actOuts, actSlice,
                List.cons_append, List.nil_append]
              rfl

/-- The record-transition phase: each worker records its scope's slices of
rewards, next states and dones, the whole infos object, and its cached
states and actions; worker states are unchanged. -/
theorem runPhase_rec {σ β ρ ι : Type} (t T : Nat) (rw : List ρ) (ns : List σ)
    (dn : List Bool) (infos : ι) :
    ∀ (k : Nat) (agents : List (AgentM σ β)) (workers : List (Worker σ β))
      (scopes : List (Nat × Nat)),
      HasAgents agents workers →
      scopes.length = agents.length →
      runPhase ⟨recTask, t, T⟩ k scopes
          (scopes.map fun _ =>
            [QVal.qRewards rw, QVal.qStates ns, QVal.qDones dn, QVal.qInfos infos]) workers =
        some (workers, recEvsFrom ρ ι t rw ns dn infos k (workers.zip scopes),
          scopes.map fun _ => []) := by
  intro k agents
  induction agents generalizing k with
  | nil =>
      intro workers scopes hag hlen
      cases hag
      cases scopes with
      | nil => rfl
      | cons _ _ => simp at hlen
  | cons a as ih =>
      intro workers scopes hag hlen
      cases hag with
      | cons hw hws =>
          rename_i w ws
          cases scopes with
          | nil => simp at hlen
          | cons sc scs =>
              obtain ⟨ag, cs, ca⟩ := w
              change ag = some a at hw
              subst hw
              have ihx := ih (k + 1) ws scs hws (by simpa using hlen)
              simp only [List.map_cons, runPhase, fn_dispatch_rec,
                Option.bind_eq_bind, Option.some_bind, ihx, List.zip_cons_cons,
                recEvsFrom, List.cons_append, List.nil_append]
              rfl

/-- The post-interaction phase succeeds and leaves every worker unchanged. -/
theorem runPhase_post {σ β ρ ι : Type} (t T : Nat) :
    ∀ (k : Nat) (agents : List (AgentM σ β)) (workers : List (Worker σ β))
      (scopes : List (Nat × Nat)),
      HasAgents agents workers →
      scopes.length = agents.length →
      runPhase (ρ := ρ) (ι := ι) ⟨postTask, t, T⟩ k scopes
          (scopes.map fun _ => []) workers =
        some (workers, postEvsFrom σ β ρ ι t k workers.length, scopes.map fun _ => []) := by
  intro k agents
  induction agents generalizing k with
  | nil =>
      intro workers scopes hag hlen
      cases hag
      cases scopes with
      | nil => rfl
      | cons _ _ => simp at hlen
  | cons a as ih =>
      intro workers scopes hag hlen
      cases hag with
      | cons hw hws =>
          rename_i w ws
          cases scopes with
          | nil => simp at hlen
          | cons sc scs =>
              obtain ⟨ag, cs, ca⟩ := w
              change ag = some a at hw
              subst hw
              have ihx := ih (k + 1) ws scs hws (by simpa using hlen)
              simp only [List.map_cons, List.length_cons, runPhase, fn_dispatch_post,
                Option.bind_eq_bind, Option.some_bind, ihx, postEvsFrom,
                List.cons_append, List.nil_append]

/-- The merged evaluation record + post phase: like the record phase but with
the base-class calls; worker states are unchanged. -/
theorem runPhase_eval {σ β ρ ι : Type} (t T : Nat) (rw : List ρ) (ns : List σ)
    (dn : List Bool) (infos : ι) :
    ∀ (k : Nat) (agents : List (AgentM σ β)) (workers : List (Worker σ β))
      (scopes : List (Nat × Nat)),
      HasAgents agents workers →
      scopes.length = agents.length →
      runPhase ⟨evalTask, t, T⟩ k scopes
          (scopes.map fun _ =>
            [QVal.qRewards rw, QVal.qStates ns, QVal.qDones dn, QVal.qInfos infos]) workers =
        some (workers, evalEvsFrom ρ ι t rw ns dn infos k (workers.zip scopes),
          scopes.map fun _ => []) := by
  intro k agents
  induction agents generalizing k with
  | nil =>
      intro workers scopes hag hlen
      cases hag
      cases scopes with
      | nil => rfl
      | cons _ _ => simp at hlen
  | cons a as ih =>
      intro workers scopes hag hlen
      cases hag with
      | cons hw hws =>
          rename_i w ws
          cases scopes with
          | nil => simp at hlen
          | cons sc scs =>
              obtain ⟨ag, cs, ca⟩ := w
              change ag = some a at hw
              subst hw
              have ihx := ih (k + 1) ws scs hws (by simpa using hlen)
              simp only [List.map_cons, runPhase, fn_dispatch_eval,
                Option.bind_eq_bind, Option.some_bind, ihx, List.zip_cons_cons,
                evalEvsFrom, List.cons_append, List.nil_append]
              rfl

/-- Collecting the act-phase queues yields the vstack of the action slices in
worker-index order. -/
theorem collectActions_actOuts {σ β ρ ι : Type} (S : List σ) (t T : Nat) :
    ∀ ps : List (AgentM σ β × (Nat × Nat)),
      collectActions (actOuts ρ ι S t T ps) = some (vstackActions S t T ps)
  | [] => rfl
  | p :: rest => by
      have ih := collectActions_actOuts (ρ := ρ) (ι := ι) S t T rest
      simp only [actOuts] at ih
      simp only [actOuts, List.map_cons, collectActions, ih,
        vstackActions, List.flatten_cons]
      rfl

/-! ### Master computation of one timestep -/

/-- The init phase establishes the agent-ownership invariant. -/
theorem hasAgents_initedWorkers {σ β : Type} (agents : List (AgentM σ β)) :
    HasAgents agents (initedWorkers agents) := by
  induction agents with
  | nil => exact List.Forall₂.nil
  | cons a as ih => exact List.Forall₂.cons rfl ih

/-- The act phase preserves the agent-ownership invariant. -/
theorem hasAgents_actedWorkers {σ β : Type} (S : List σ) (t T : Nat) :
    ∀ (agents : List (AgentM σ β)) (scopes : List (Nat × Nat)),
      scopes.length = agents.length →
      HasAgents agents (actedWorkers S t T (agents.zip scopes))
  | [], [], _ => List.Forall₂.nil
  | a :: as, sc :: scs, hlen => by
      simp only [List.zip_cons_cons, actedWorkers, List.map_cons]
      exact List.Forall₂.cons rfl (hasAgents_actedWorkers S t T as scs (by simpa using hlen))

theorem actedWorkers_length {σ β : Type} (S : List σ) (t T : Nat)
    (ps : List (AgentM σ β × (Nat × Nat))) :
    (actedWorkers S t T ps).length = ps.length := by
  simp [actedWorkers]

/-- Derived form of one `train()` timestep: the final loop state and the full
event trace, phase by phase.  `n` abbreviates the number of agents. -/
def trainStepSpec {σ β ρ ι : Type} (scopes : List (Nat × Nat)) (env : EnvM σ β ρ ι)
    (T : Nat) (headless : Bool) (agents : List (AgentM σ β)) (S : List σ)
    (rc t : Nat) : LoopState σ β × List (Ev σ β ρ ι) :=
  let n := agents.length
  let ps := agents.zip scopes
  let A := vstackActions S t T ps
  let r := env.stepFn t A
  let ws' := actedWorkers S t T ps
  (⟨ws', if r.2.2.1.any id then env.resetFn rc else r.1,
     if r.2.2.1.any id then rc + 1 else rc⟩,
    preEvsFrom σ β ρ ι t 0 n ++ Ev.coordBarrier ::
      actEvsFrom ρ ι S t T 0 ps ++ Ev.coordBarrier :: Ev.envStep t A ::
      (if headless then [] else [Ev.envRender]) ++
      recEvsFrom ρ ι t r.2.1 r.1 r.2.2.1 r.2.2.2 0 (ws'.zip scopes) ++ Ev.coordBarrier ::
      postEvsFrom σ β ρ ι t 0 n ++ Ev.coordBarrier ::
      (if r.2.2.1.any id then [Ev.envReset] else []))

/-- One `train()` timestep computes `trainStepSpec`. -/
theorem trainTimestep_eq {σ β ρ ι : Type} (scopes : List (Nat × Nat))
    (env : EnvM σ β ρ ι) (T : Nat) (headless : Bool) (agents : List (AgentM σ β))
    (workers : List (Worker σ β)) (S : List σ) (rc t : Nat)
    (hag : HasAgents agents workers) (hlen : scopes.length = agents.length) :
    trainTimestep scopes env T headless ⟨workers, S, rc⟩ t =
      some (trainStepSpec scopes env T headless agents S rc t) := by
  have hwlen : agents.length = workers.length := hag.length_eq
  have hag' : HasAgents agents (actedWorkers S t T (agents.zip scopes)) :=
    hasAgents_actedWorkers S t T agents scopes hlen
  have hpost : (actedWorkers S t T (agents.zip scopes)).length = agents.length := by
    rw [actedWorkers_length, List.length_zip, hlen, Nat.min_self]
  unfold trainTimestep
  rw [runPhase_pre t T 0 agents workers scopes hag hlen]
  simp only [Option.bind_eq_bind, Option.some_bind]
  rw [runPhase_act S t T 0 agents workers scopes hag hlen]
  simp only [Option.some_bind]
  rw [collectActions_actOuts (ρ := ρ) (ι := ι) S t T (agents.zip scopes)]
  simp only [Option.some_bind]
  rcases hstep : env.stepFn t (vstackActions S t T (agents.zip scopes)) with ⟨ns, rw', dn, infos⟩
  simp only [hstep]
  rw [runPhase_rec t T rw' ns dn infos 0 agents (actedWorkers S t T (agents.zip scopes))
    scopes hag' hlen]
  simp only [Option.some_bind]
  rw [runPhase_post t T 0 agents (actedWorkers S t T (agents.zip scopes)) scopes hag' hlen]
  simp only [Option.some_bind]
  cases hdn : dn.any id with
  | false => simp [trainStepSpec, hstep, hdn, ← hwlen, hpost]
  | true => simp [trainStepSpec, hstep, hdn, ← hwlen, hpost]

/-- Derived form of one `eval()` timestep. -/
def evalStepSpec {σ β ρ ι : Type} (scopes : List (Nat × Nat)) (env : EnvM σ β ρ ι)
    (T : Nat) (headless : Bool) (agents : List (AgentM σ β)) (S : List σ)
    (rc t : Nat) : LoopState σ β × List (Ev σ β ρ ι) :=
  let ps := agents.zip scopes
  let A := vstackActions S t T ps
  let r := env.stepFn t A
  let ws' := actedWorkers S t T ps
  (⟨ws', if r.2.2.1.any id then env.resetFn rc else r.1,
     if r.2.2.1.any id then rc + 1 else rc⟩,
    actEvsFrom ρ ι S t T 0 ps ++ Ev.coordBarrier :: Ev.envStep t A ::
      (if headless then [] else [Ev.envRender]) ++
      evalEvsFrom ρ ι t r.2.1 r.1 r.2.2.1 r.2.2.2 0 (ws'.zip scopes) ++ Ev.coordBarrier ::
      (if r.2.2.1.any id then [Ev.envReset] else []))

/-- One `eval()` timestep computes `evalStepSpec`. -/
theorem evalTimestep_eq {σ β ρ ι : Type} (scopes : List (Nat × Nat))
    (env : EnvM σ β ρ ι) (T : Nat) (headless : Bool) (agents : List (AgentM σ β))
    (workers : List (Worker σ β)) (S : List σ) (rc t : Nat)
    (hag : HasAgents agents workers) (hlen : scopes.length = agents.length) :
    evalTimestep scopes env T headless ⟨workers, S, rc⟩ t =
      some (evalStepSpec scopes env T headless agents S rc t) := by
  have hag' : HasAgents agents (actedWorkers S t T (agents.zip scopes)) :=
    hasAgents_actedWorkers S t T agents scopes hlen
  unfold evalTimestep
  rw [runPhase_act S t T 0 agents workers scopes hag hlen]
  simp only [Option.bind_eq_bind, Option.some_bind]
  rw [collectActions_actOuts (ρ := ρ) (ι := ι) S t T (agents.zip scopes)]
  simp only [Option.some_bind]
  rcases hstep : env.stepFn t (vstackActions S t T (agents.zip scopes)) with ⟨ns, rw', dn, infos⟩
  simp only [hstep]
  rw [runPhase_eval t T rw' ns dn infos 0 agents (actedWorkers S t T (agents.zip scopes))
    scopes hag' hlen]
  simp only [Option.some_bind]
  cases hdn : dn.any id with
  | false => simp [evalStepSpec, hstep, hdn]
  | true => simp [evalStepSpec, hstep, hdn]

/-! ### Master computation of the whole run -/

/-- Derived form of the `train()` timestep loop: `k` remaining iterations
starting at timestep `t`. -/
def trainLoopSpec {σ β ρ ι : Type} (scopes : List (Nat × Nat)) (env : EnvM σ β ρ ι)
    (T : Nat) (headless : Bool) (agents : List (AgentM σ β)) :
    Nat → Nat → LoopState σ β → LoopState σ β × List (Ev σ β ρ ι)
  | 0, _, ls => (ls, [])
  | k + 1, t, ls =>
      let r := trainStepSpec scopes env T headless agents ls.states ls.resets t
      let r' := trainLoopSpec scopes env T headless agents k (t + 1) r.1
      (r'.1, r.2 ++ r'.2)

/-- Derived form of the `eval()` timestep loop. -/
def evalLoopSpec {σ β ρ ι : Type} (scopes : List (Nat × Nat)) (env : EnvM σ β ρ ι)
    (T : Nat) (headless : Bool) (agents : List (AgentM σ β)) :
    Nat → Nat → LoopState σ β → LoopState σ β × List (Ev σ β ρ ι)
  | 0, _, ls => (ls, [])
  | k + 1, t, ls =>
      let r := evalStepSpec scopes env T headless agents ls.states ls.resets t
      let r' := evalLoopSpec scopes env T headless agents k (t + 1) r.1
      (r'.1, r.2 ++ r'.2)

theorem trainStepSpec_workers {σ β ρ ι : Type} (scopes : List (Nat × Nat))
    (env : EnvM σ β ρ ι) (T : Nat) (headless : Bool) (agents : List (AgentM σ β))
    (S : List σ) (rc t : Nat) :
    (trainStepSpec scopes env T headless agents S rc t).1.workers =
      actedWorkers S t T (agents.zip scopes) := by
  simp [trainStepSpec]

theorem evalStepSpec_workers {σ β ρ ι : Type} (scopes : List (Nat × Nat))
    (env : EnvM σ β ρ ι) (T : Nat) (headless : Bool) (agents : List (AgentM σ β))
    (S : List σ) (rc t : Nat) :
    (evalStepSpec scopes env T headless agents S rc t).1.workers =
      actedWorkers S t T (agents.zip scopes) := by
  simp [evalStepSpec]

/-- The `train()` timestep loop computes `trainLoopSpec`. -/
theorem trainLoop_eq {σ β ρ ι : Type} (scopes : List (Nat × Nat)) (env : EnvM σ β ρ ι)
    (T : Nat) (headless : Bool) (agents : List (AgentM σ β)) :
    ∀ (k t : Nat) (ls : LoopState σ β),
      HasAgents agents ls.workers →
      scopes.length = agents.length →
      runLoop (trainTimestep scopes env T headless) k t ls =
        some (trainLoopSpec scopes env T headless agents k t ls)
  | 0, t, ls, _, _ => rfl
  | k + 1, t, ls, hag, hlen => by
      obtain ⟨ws, S, rc⟩ := ls
      have hstep := trainTimestep_eq scopes env T headless agents ws S rc t hag hlen
      have hag' : HasAgents agents
          (trainStepSpec scopes env T headless agents S rc t).1.workers := by
        rw [trainStepSpec_workers]
        exact hasAgents_actedWorkers S t T agents scopes hlen
      have ih := trainLoop_eq scopes env T headless agents k (t + 1)
        (trainStepSpec scopes env T headless agents S rc t).1 hag' hlen
      simp only [runLoop, hstep, Option.bind_eq_bind, Option.some_bind, ih,
        trainLoopSpec]

/-- The `eval()` timestep loop computes `evalLoopSpec`. -/
theorem evalLoop_eq {σ β ρ ι : Type} (scopes : List (Nat × Nat)) (env : EnvM σ β ρ ι)
    (T : Nat) (headless : Bool) (agents : List (AgentM σ β)) :
    ∀ (k t : Nat) (ls : LoopState σ β),
      HasAgents agents ls.workers →
      scopes.length = agents.length →
      runLoop (evalTimestep scopes env T headless) k t ls =
        some (evalLoopSpec scopes env T headless agents k t ls)
  | 0, t, ls, _, _ => rfl
  | k + 1, t, ls, hag, hlen => by
      obtain ⟨ws, S, rc⟩ := ls
      have hstep := evalTimestep_eq scopes env T headless agents ws S rc t hag hlen
      have hag' : HasAgents agents
          (evalStepSpec scopes env T headless agents S rc t).1.workers := by
        rw [evalStepSpec_workers]
        exact hasAgents_actedWorkers S t T agents scopes hlen
      have ih := evalLoop_eq scopes env T headless agents k (t + 1)
        (evalStepSpec scopes env T headless agents S rc t).1 hag' hlen
      simp only [runLoop, hstep, Option.bind_eq_bind, Option.some_bind, ih,
        evalLoopSpec]

/-- With at least two agents and one scope per agent, `train()` completes and
its trace is bootstrap, init, first reset, the timestep loop, teardown. -/
theorem trainRun_eq {σ β ρ ι : Type} (agents : List (AgentM σ β))
    (scopes : List (Nat × Nat)) (env : EnvM σ β ρ ι)
    (initialTimestep timesteps : Nat) (headless : Bool)
    (h2 : 2 ≤ agents.length) (hlen : scopes.length = agents.length) :
    trainRun agents scopes env initialTimestep timesteps headless =
      some (bootstrapEvs agents.length ++ initEvsFrom σ β ρ ι 0 agents.length ++
        Ev.coordBarrier :: Ev.envReset ::
        (trainLoopSpec scopes env timesteps headless agents
          (timesteps - initialTimestep) initialTimestep
          ⟨initedWorkers agents, env.resetFn 0, 1⟩).2 ++
        teardownEvs agents.length) := by
  have hne : ¬ agents.length = 1 := by omega
  have hinit := runPhase_init (ρ := ρ) (ι := ι) 0 agents scopes hlen.symm
  have hloop := trainLoop_eq scopes env timesteps headless agents
    (timesteps - initialTimestep) initialTimestep
    ⟨initedWorkers agents, env.resetFn 0, 1⟩ (hasAgents_initedWorkers agents) hlen
  simp only [trainRun, hne, if_false, hinit, Option.bind_eq_bind, Option.some_bind,
    hloop]

/-- With at least two agents and one scope per agent, `eval()` completes and
its trace is bootstrap, init, first reset, the timestep loop, teardown. -/
theorem evalRun_eq {σ β ρ ι : Type} (agents : List (AgentM σ β))
    (scopes : List (Nat × Nat)) (env : EnvM σ β ρ ι)
    (initialTimestep timesteps : Nat) (headless : Bool)
    (h2 : 2 ≤ agents.length) (hlen : scopes.length = agents.length) :
    evalRun agents scopes env initialTimestep timesteps headless =
      some (bootstrapEvs agents.length ++ initEvsFrom σ β ρ ι 0 agents.length ++
        Ev.coordBarrier :: Ev.envReset ::
        (evalLoopSpec scopes env timesteps headless agents
          (timesteps - initialTimestep) initialTimestep
          ⟨initedWorkers agents, env.resetFn 0, 1⟩).2 ++
        teardownEvs agents.length) := by
  have hne : ¬ agents.length = 1 := by omega
  have hinit := runPhase_init (ρ := ρ) (ι := ι) 0 agents scopes hlen.symm
  have hloop := evalLoop_eq scopes env timesteps headless agents
    (timesteps - initialTimestep) initialTimestep
    ⟨initedWorkers agents, env.resetFn 0, 1⟩ (hasAgents_initedWorkers agents) hlen
  simp only [evalRun, hne, if_false, hinit, Option.bind_eq_bind, Option.some_bind,
    hloop]

/-! ### Shapes of the per-phase event blocks -/

theorem mem_initEvsFrom {σ β ρ ι : Type} {e : Ev σ β ρ ι} :
    ∀ {k n : Nat}, e ∈ initEvsFrom σ β ρ ι k n →
      (∃ w, e = Ev.agentInit w) ∨ (∃ w, e = Ev.workerBarrier w)
  | _, 0, h => absurd h (List.not_mem_nil e)
  | k, n + 1, h => by
      rcases h with _ | ⟨_, h⟩
      · exact Or.inl ⟨k, rfl⟩
      rcases h with _ | ⟨_, h⟩
      · exact Or.inr ⟨k, rfl⟩
      exact mem_initEvsFrom h

theorem mem_preEvsFrom {σ β ρ ι : Type} {t : Nat} {e : Ev σ β ρ ι} :
    ∀ {k n : Nat}, e ∈ preEvsFrom σ β ρ ι t k n →
      (∃ w, e = Ev.preInteraction w t) ∨ (∃ w, e = Ev.workerBarrier w)
  | _, 0, h => absurd h (List.not_mem_nil e)
  | k, n + 1, h => by
      rcases h with _ | ⟨_, h⟩
      · exact Or.inl ⟨k, rfl⟩
      rcases h with _ | ⟨_, h⟩
      · exact Or.inr ⟨k, rfl⟩
      exact mem_preEvsFrom h

theorem mem_postEvsFrom {σ β ρ ι : Type} {t : Nat} {e : Ev σ β ρ ι} :
    ∀ {k n : Nat}, e ∈ postEvsFrom σ β ρ ι t k n →
      (∃ w, e = Ev.postInteraction w t) ∨ (∃ w, e = Ev.workerBarrier w)
  | _, 0, h => absurd h (List.not_mem_nil e)
  | k, n + 1, h => by
      rcases h with _ | ⟨_, h⟩
      · exact Or.inl ⟨k, rfl⟩
      rcases h with _ | ⟨_, h⟩
      · exact Or.inr ⟨k, rfl⟩
      exact mem_postEvsFrom h

theorem mem_actEvsFrom {σ β ρ ι : Type} {S : List σ} {t T : Nat} {e : Ev σ β ρ ι} :
    ∀ {k : Nat} {ps : List (AgentM σ β × (Nat × Nat))}, e ∈ actEvsFrom ρ ι S t T k ps →
      (∃ w st, e = Ev.agentAct w t st) ∨ (∃ w, e = Ev.workerBarrier w)
  | _, [], h => absurd h (List.not_mem_nil e)
  | k, p :: rest, h => by
      rcases h with _ | ⟨_, h⟩
      · exact Or.inl ⟨k, _, rfl⟩
      rcases h with _ | ⟨_, h⟩
      · exact Or.inr ⟨k, rfl⟩
      exact mem_actEvsFrom h

theorem mem_recEvsFrom {σ β ρ ι : Type} {t : Nat} {rw : List ρ} {ns : List σ}
    {dn : List Bool} {infos : ι} {e : Ev σ β ρ ι} :
    ∀ {k : Nat} {ps : List (Worker σ β × (Nat × Nat))},
      e ∈ recEvsFrom ρ ι t rw ns dn infos k ps →
      (∃ w cs ca r n d, e = Ev.recordTransition w t cs ca r n d infos) ∨
        (∃ w, e = Ev.workerBarrier w)
  | _, [], h => absurd h (List.not_mem_nil e)
  | k, p :: rest, h => by
      rcases h with _ | ⟨_, h⟩
      · exact Or.inl ⟨k, _, _, _, _, _, rfl⟩
      rcases h with _ | ⟨_, h⟩
      · exact Or.inr ⟨k, rfl⟩
      exact mem_recEvsFrom h

theorem mem_evalEvsFrom {σ β ρ ι : Type} {t : Nat} {rw : List ρ} {ns : List σ}
    {dn : List Bool} {infos : ι} {e : Ev σ β ρ ι} :
    ∀ {k : Nat} {ps : List (Worker σ β × (Nat × Nat))},
      e ∈ evalEvsFrom ρ ι t rw ns dn infos k ps →
      (∃ w cs ca r n d, e = Ev.baseRecordTransition w t cs ca r n d infos) ∨
        (∃ w, e = Ev.basePostInteraction w t) ∨ (∃ w, e = Ev.workerBarrier w)
  | _, [], h => absurd h (List.not_mem_nil e)
  | k, p :: rest, h => by
      rcases h with _ | ⟨_, h⟩
      · exact Or.inl ⟨k, _, _, _, _, _, rfl⟩
      rcases h with _ | ⟨_, h⟩
      · exact Or.inr (Or.inl ⟨k, rfl⟩)
      rcases h with _ | ⟨_, h⟩
      · exact Or.inr (Or.inr ⟨k, rfl⟩)
      exact mem_evalEvsFrom h

/-! ### Claim C10 -/

/-- C10: a message whose task string is none of the seven recognized commands
makes the worker dispatch loop raise no error, call no agent method, wait on
no barrier, and return to receiving the next message (exit flag `false`) with
its local state — including the cached states and actions — unchanged. -/
theorem c10_unknown_task_ignored {σ β ρ ι : Type} (scope : Nat × Nat) (widx : Nat)
    (msg : Msg) (queue : List (QVal σ β ρ ι)) (w : Worker σ β)
    (h : msg.task ∉ recognizedTasks) :
    fn_dispatch scope widx msg queue w = some (w, [], [], false) := by
  simp only [recognizedTasks, List.mem_cons, List.not_mem_nil, or_false, not_or] at h
  obtain ⟨h1, h2, h3, h4, h5, h6, h7⟩ := h
  simp [fn_dispatch, h1, h2, h3, h4, h5, h6, h7]

/-- C10 witness: a concrete unknown task string. -/
theorem c10_witness :
    fn_dispatch (σ := Nat) (β := Nat) (ρ := Nat) (ι := Nat) (0, 1) 0
        ⟨"learn", 3, 5⟩ [] initialWorker =
      some (initialWorker, [], [], false) :=
  c10_unknown_task_ignored (0, 1) 0 ⟨"learn", 3, 5⟩ [] initialWorker (by decide)

/-! ### Claim C3 -/

/-- C3: on an `act` command the worker slices the received full states tensor
to its own scope rows `[s, e)` before calling `agent.act` and caches both the
slice and the returned action slice; the states slice carries exactly `e - s`
rows (and so does the returned action slice whenever the agent emits one
action row per state row); on a `record_transition` command of the same
timestep it slices the received rewards, next-states and dones tensors to the
same scope, passes the infos object whole, and supplies exactly the states
and actions cached by the act phase. -/
theorem c3_worker_slicing {σ β ρ ι : Type} (s e widx t T : Nat) (S : List σ)
    (rest rest' : List (QVal σ β ρ ι)) (a : AgentM σ β)
    (cs : Option (List σ)) (ca : Option (List β))
    (rw : List ρ) (ns : List σ) (dn : List Bool) (infos : ι)
    (hse : s ≤ e) (heS : e ≤ S.length)
    (hrows : ∀ st : List σ, (a.actFn st t T).length = st.length) :
    fn_dispatch (s, e) widx ⟨actTask, t, T⟩ (QVal.qStates S :: rest) ⟨some a, cs, ca⟩ =
      some (⟨some a, some (sliceT S (s, e)), some (a.actFn (sliceT S (s, e)) t T)⟩,
        [Ev.agentAct widx t (sliceT S (s, e)), Ev.workerBarrier widx],
        [QVal.qActions (a.actFn (sliceT S (s, e)) t T)], false) ∧
    (sliceT S (s, e)).length = e - s ∧
    (a.actFn (sliceT S (s, e)) t T).length = e - s ∧
    fn_dispatch (s, e) widx ⟨recTask, t, T⟩
        (QVal.qRewards rw :: QVal.qStates ns :: QVal.qDones dn :: QVal.qInfos infos :: rest')
        ⟨some a, some (sliceT S (s, e)), some (a.actFn (sliceT S (s, e)) t T)⟩ =
      some (⟨some a, some (sliceT S (s, e)), some (a.actFn (sliceT S (s, e)) t T)⟩,
        [Ev.recordTransition widx t
           (some (sliceT S (s, e))) (some (a.actFn (sliceT S (s, e)) t T))
           (sliceT rw (s, e)) (sliceT ns (s, e)) (sliceT dn (s, e)) infos,
         Ev.workerBarrier widx], [], false) := by
  have hlen : (sliceT S (s, e)).length = e - s := by
    simp only [sliceT, List.length_take, List.length_drop]
    omega
  exact ⟨fn_dispatch_act (s, e) widx t T S rest a cs ca, hlen,
    by rw [hrows, hlen],
    fn_dispatch_rec (s, e) widx t T rw ns dn infos rest' a
      (some (sliceT S (s, e))) (some (a.actFn (sliceT S (s, e)) t T))⟩

/-- C3 witness: worker scope `[1, 3)` of a 4-row batch. -/
theorem c3_witness :
    (1 : Nat) ≤ 3 ∧ (3 : Nat) ≤ ([10, 11, 12, 13] : List Nat).length ∧
    (∀ st : List Nat, ((AgentM.mk fun st _ _ => st.map (fun x => x + 1)).actFn st 0 5).length
       = st.length) ∧
    (sliceT ([10, 11, 12, 13] : List Nat) (1, 3)).length = 3 - 1 :=
  ⟨by decide, by decide, fun st => by simp,
    ((c3_worker_slicing 1 3 0 0 5 [10, 11, 12, 13] [] []
        (AgentM.mk fun st _ _ => st.map (fun x => x + 1)) none none
        ([5, 5] : List Nat) ([20, 21] : List Nat) [false, false] (0 : Nat)
        (by decide) (by decide) (fun st => by simp)).2).1⟩

/-! ### Claim C6 -/

/-- C6: with exactly one agent, `train()` and `eval()` create no pipes, no
queues, no barrier and spawn no worker process: they run the in-process
single-agent path (`agents.init()` followed by the sequential
`single_agent_train` / `single_agent_eval` of the base class) and return
immediately after it. -/
theorem c6_single_agent_path {σ β ρ ι : Type} (agents : List (AgentM σ β))
    (scopes : List (Nat × Nat)) (env : EnvM σ β ρ ι)
    (initialTimestep timesteps : Nat) (headless : Bool)
    (h1 : agents.length = 1) :
    trainRun agents scopes env initialTimestep timesteps headless =
      some [Ev.mainAgentInit, Ev.singleAgentTrain] ∧
    evalRun agents scopes env initialTimestep timesteps headless =
      some [Ev.mainAgentInit, Ev.singleAgentEval] ∧
    (∀ tr : List (Ev σ β ρ ι),
      tr = [Ev.mainAgentInit, Ev.singleAgentTrain] ∨
        tr = [Ev.mainAgentInit, Ev.singleAgentEval] →
      ∀ w n : Nat, Ev.mkPipe w ∉ tr ∧ Ev.mkQueue w ∉ tr ∧
        Ev.mkBarrier n ∉ tr ∧ Ev.spawn w ∉ tr ∧ Ev.coordBarrier ∉ tr) := by
  refine ⟨by simp [trainRun, h1], by simp [evalRun, h1], ?_⟩
  rintro tr (rfl | rfl) w n <;> simp

/-- C6 witness: a concrete one-agent run. -/
theorem c6_witness :
    trainRun [AgentM.mk fun st _ _ => st] ([(0, 2)] : List (Nat × Nat))
        (EnvM.mk (fun _ => [0, 0]) (fun _ _ => ([0, 0], [0, 0], [false, false], (0 : Nat))))
        0 3 true =
      some [Ev.mainAgentInit, Ev.singleAgentTrain] ∧
    (∀ w : Nat,
      Ev.mkPipe w ∉ ([Ev.mainAgentInit, Ev.singleAgentTrain] :
        List (Ev Nat Nat Nat Nat))) :=
  ⟨(c6_single_agent_path [AgentM.mk fun st _ _ => st] [(0, 2)]
      (EnvM.mk (fun _ => [0, 0]) (fun _ _ => ([0, 0], [0, 0], [false, false], (0 : Nat))))
      0 3 true (by decide)).1,
   fun w => by simp⟩

/-! ### Claim C1 -/

/-- A scope list tiles `[s, e)` contiguously in order: each scope starts
where the previous one ended (this is the shape the base `Trainer` produces
from the per-agent environment counts). -/
def contiguousFrom : Nat → List (Nat × Nat) → Nat → Bool
  | s, [], e => s == e
  | s, sc :: rest, e => sc.1 == s && decide (s < sc.2) && contiguousFrom sc.2 rest e

theorem contiguousFrom_le : ∀ {s : Nat} {l : List (Nat × Nat)} {e : Nat},
    contiguousFrom s l e = true → s ≤ e
  | s, [], e, h => by
      simp only [contiguousFrom, beq_iff_eq] at h
      omega
  | s, sc :: rest, e, h => by
      simp only [contiguousFrom, Bool.and_eq_true, beq_iff_eq, decide_eq_true_eq] at h
      have := contiguousFrom_le h.2
      omega

/-- Every scope of a contiguous tiling of `[s, e)` lies within `[s, e)`. -/
theorem contiguousFrom_mem : ∀ {s : Nat} {l : List (Nat × Nat)} {e : Nat},
    contiguousFrom s l e = true → ∀ sc ∈ l, s ≤ sc.1 ∧ sc.1 < sc.2 ∧ sc.2 ≤ e
  | s, [], e, _, sc, hm => absurd hm (List.not_mem_nil sc)
  | s, sc' :: rest, e, h, sc, hm => by
      simp only [contiguousFrom, Bool.and_eq_true, beq_iff_eq, decide_eq_true_eq] at h
      obtain ⟨⟨h1, h2⟩, h3⟩ := h
      rcases hm with _ | ⟨_, hm⟩
      · exact ⟨by omega, by omega, contiguousFrom_le h3⟩
      · have := contiguousFrom_mem h3 sc hm
        omega

/-- Concatenating the per-worker action slices of a contiguous tiling of
`[s, e)` yields `e - s` rows, and the row at global index `i` comes from the
worker whose scope contains `i`, at local offset `i - start`. -/
theorem vstackActions_spec {σ β : Type} (S : List σ) (t T : Nat) :
    ∀ (s e : Nat) (ps : List (AgentM σ β × (Nat × Nat))),
      contiguousFrom s (ps.map Prod.snd) e = true →
      (∀ p ∈ ps, (actSlice S t T p).length = p.2.2 - p.2.1) →
      (vstackActions S t T ps).length = e - s ∧
      ∀ p ∈ ps, ∀ i, p.2.1 ≤ i → i < p.2.2 →
        (vstackActions S t T ps).get? (i - s) = (actSlice S t T p).get? (i - p.2.1)
  | s, e, [], hc, _ => by
      simp only [List.map_nil, contiguousFrom, beq_iff_eq] at hc
      refine ⟨by simp only [vstackActions, List.map_nil, List.flatten_nil, List.length_nil]; omega, ?_⟩
      intro p hp
      exact absurd hp (List.not_mem_nil p)
  | s, e, p :: rest, hc, hrows => by
      simp only [List.map_cons, contiguousFrom, Bool.and_eq_true, beq_iff_eq,
        decide_eq_true_eq] at hc
      obtain ⟨⟨hstart, hlt⟩, hrest⟩ := hc
      have hhead : (actSlice S t T p).length = p.2.2 - p.2.1 :=
        hrows p (List.mem_cons_self p rest)
      have ih := vstackActions_spec S t T p.2.2 e rest hrest
        (fun q hq => hrows q (List.mem_cons_of_mem p hq))
      have hcons : vstackActions S t T (p :: rest) =
          actSlice S t T p ++ vstackActions S t T rest := by
        simp [vstackActions]
      have he : p.2.2 ≤ e := contiguousFrom_le hrest
      constructor
      · rw [hcons, List.length_append, hhead, ih.1]
        omega
      · intro q hq i hi1 hi2
        rcases hq with _ | ⟨_, hq⟩
        · -- the row comes from the head worker
          rw [hcons, List.get?_append]
          · rw [hstart]
          · rw [hhead]
            omega
        · -- the row comes from a later worker
          have hqb := contiguousFrom_mem hrest q.2 (List.mem_map_of_mem Prod.snd hq)
          have hge : p.2.2 ≤ i := by omega
          rw [hcons, List.get?_append_right]
          · have : i - s - (actSlice S t T p).length = i - p.2.2 := by
              rw [hhead]; omega
            rw [this]
            exact ih.2 q hq i hi1 hi2
          · rw [hhead]
            omega

/-- C1: at every timestep of the multi-worker `train()` and `eval()` loops,
the full-batch actions tensor passed to `Environment.step` is the vertical
concatenation of the per-worker action slices in worker-index order (which
equals scope order): it has the full batch's row count, and row `i` is row
`i - start` of the action slice of the worker whose scope `[start, end)`
contains `i`.  The hypotheses say that the scopes tile `[0, batch)`
contiguously in worker order and that each agent emits one action row per
state row of its slice. -/
theorem c1_actions_concat {σ β ρ ι : Type} (agents : List (AgentM σ β))
    (scopes : List (Nat × Nat)) (env : EnvM σ β ρ ι) (T : Nat) (headless : Bool)
    (workers : List (Worker σ β)) (S : List σ) (rc t batch : Nat)
    (h2 : 2 ≤ agents.length)
    (hag : HasAgents agents workers) (hlen : scopes.length = agents.length)
    (htile : contiguousFrom 0 scopes batch = true)
    (hrows : ∀ p ∈ agents.zip scopes, (actSlice S t T p).length = p.2.2 - p.2.1) :
    ∃ (lsT : LoopState σ β) (evsT : List (Ev σ β ρ ι)) (lsE : LoopState σ β)
      (evsE : List (Ev σ β ρ ι)),
      trainTimestep scopes env T headless ⟨workers, S, rc⟩ t = some (lsT, evsT) ∧
      evalTimestep scopes env T headless ⟨workers, S, rc⟩ t = some (lsE, evsE) ∧
      Ev.envStep t (vstackActions S t T (agents.zip scopes)) ∈ evsT ∧
      Ev.envStep t (vstackActions S t T (agents.zip scopes)) ∈ evsE ∧
      (vstackActions S t T (agents.zip scopes)).length = batch ∧
      (∀ p ∈ agents.zip scopes, ∀ i, p.2.1 ≤ i → i < p.2.2 →
        (vstackActions S t T (agents.zip scopes)).get? i =
          (actSlice S t T p).get? (i - p.2.1)) := by
  have hmap : (agents.zip scopes).map Prod.snd = scopes :=
    List.map_snd_zip agents scopes (le_of_eq hlen)
  have htile' : contiguousFrom 0 ((agents.zip scopes).map Prod.snd) batch = true := by
    rw [hmap]; exact htile
  have hspec := vstackActions_spec S t T 0 batch (agents.zip scopes) htile' hrows
  refine ⟨(trainStepSpec scopes env T headless agents S rc t).1,
    (trainStepSpec scopes env T headless agents S rc t).2,
    (evalStepSpec scopes env T headless agents S rc t).1,
    (evalStepSpec scopes env T headless agents S rc t).2,
    trainTimestep_eq scopes env T headless agents workers S rc t hag hlen,
    evalTimestep_eq scopes env T headless agents workers S rc t hag hlen,
    ?_, ?_, ?_, ?_⟩
  · simp [trainStepSpec]
  · simp [evalStepSpec]
  · simpa using hspec.1
  · intro p hp i h1 h2
    have := hspec.2 p hp i h1 h2
    simpa using this

/-! ### Shape of the per-timestep traces -/

/-- Every event of one `train()` timestep is a phase event; `envReset` occurs
only when some `dones` entry is true. -/
theorem trainStepSpec_evs_shape {σ β ρ ι : Type} {scopes : List (Nat × Nat)}
    {env : EnvM σ β ρ ι} {T : Nat} {headless : Bool} {agents : List (AgentM σ β)}
    {S : List σ} {rc t : Nat} {e : Ev σ β ρ ι}
    (h : e ∈ (trainStepSpec scopes env T headless agents S rc t).2) :
    (∃ w t', e = Ev.preInteraction w t') ∨ (∃ w, e = Ev.workerBarrier w) ∨
    e = Ev.coordBarrier ∨ (∃ w t' st, e = Ev.agentAct w t' st) ∨
    (∃ t' A, e = Ev.envStep t' A) ∨ e = Ev.envRender ∨
    (∃ w t' cs ca r n d i, e = Ev.recordTransition w t' cs ca r n d i) ∨
    (∃ w t', e = Ev.postInteraction w t') ∨
    ((env.stepFn t (vstackActions S t T (agents.zip scopes))).2.2.1.any id = true ∧
      e = Ev.envReset) := by
  simp only [trainStepSpec] at h
  simp only [List.append_assoc, List.cons_append] at h
  rcases List.mem_append.1 h with h | h
  · rcases mem_preEvsFrom h with ⟨w, rfl⟩ | ⟨w, rfl⟩
    · exact Or.inl ⟨w, t, rfl⟩
    · exact Or.inr (Or.inl ⟨w, rfl⟩)
  rcases h with _ | ⟨_, h⟩
  · exact Or.inr (Or.inr (Or.inl rfl))
  rcases List.mem_append.1 h with h | h
  · rcases mem_actEvsFrom h with ⟨w, st, rfl⟩ | ⟨w, rfl⟩
    · exact Or.inr (Or.inr (Or.inr (Or.inl ⟨w, t, st, rfl⟩)))
    · exact Or.inr (Or.inl ⟨w, rfl⟩)
  rcases h with _ | ⟨_, h⟩
  · exact Or.inr (Or.inr (Or.inl rfl))
  rcases h with _ | ⟨_, h⟩
  · exact Or.inr (Or.inr (Or.inr (Or.inr (Or.inl ⟨t, _, rfl⟩))))
  rcases List.mem_append.1 h with h | h
  · have : e = Ev.envRender := by
      revert h; cases headless <;> simp
    exact Or.inr (Or.inr (Or.inr (Or.inr (Or.inr (Or.inl this)))))
  rcases List.mem_append.1 h with h | h
  · rcases mem_recEvsFrom h with ⟨w, cs, ca, r, n, d, rfl⟩ | ⟨w, rfl⟩
    · exact Or.inr (Or.inr (Or.inr (Or.inr (Or.inr (Or.inr (Or.inl
        ⟨w, t, cs, ca, r, n, d, _, rfl⟩))))))
    · exact Or.inr (Or.inl ⟨w, rfl⟩)
  rcases h with _ | ⟨_, h⟩
  · exact Or.inr (Or.inr (Or.inl rfl))
  rcases List.mem_append.1 h with h | h
  · rcases mem_postEvsFrom h with ⟨w, rfl⟩ | ⟨w, rfl⟩
    · exact Or.inr (Or.inr (Or.inr (Or.inr (Or.inr (Or.inr (Or.inr (Or.inl
        ⟨w, t, rfl⟩)))))))
    · exact Or.inr (Or.inl ⟨w, rfl⟩)
  rcases h with _ | ⟨_, h⟩
  · exact Or.inr (Or.inr (Or.inl rfl))
  · revert h
    cases hdn : (env.stepFn t (vstackActions S t T (agents.zip scopes))).2.2.1.any id with
    | false =>
        intro h
        exact absurd h (List.not_mem_nil e)
    | true =>
        intro h
        rcases h with _ | ⟨_, h⟩
        · exact Or.inr (Or.inr (Or.inr (Or.inr (Or.inr (Or.inr (Or.inr (Or.inr
            ⟨rfl, rfl⟩)))))))
        · exact absurd h (List.not_mem_nil e)

/-- Every event of one `eval()` timestep is a phase event; there is no
pre-interaction and no learning-variant record or post call, and `envReset`
occurs only when some `dones` entry is true. -/
theorem evalStepSpec_evs_shape {σ β ρ ι : Type} {scopes : List (Nat × Nat)}
    {env : EnvM σ β ρ ι} {T : Nat} {headless : Bool} {agents : List (AgentM σ β)}
    {S : List σ} {rc t : Nat} {e : Ev σ β ρ ι}
    (h : e ∈ (evalStepSpec scopes env T headless agents S rc t).2) :
    (∃ w, e = Ev.workerBarrier w) ∨
    e = Ev.coordBarrier ∨ (∃ w t' st, e = Ev.agentAct w t' st) ∨
    (∃ t' A, e = Ev.envStep t' A) ∨ e = Ev.envRender ∨
    (∃ w t' cs ca r n d i, e = Ev.baseRecordTransition w t' cs ca r n d i) ∨
    (∃ w t', e = Ev.basePostInteraction w t') ∨
    ((env.stepFn t (vstackActions S t T (agents.zip scopes))).2.2.1.any id = true ∧
      e = Ev.envReset) := by
  simp only [evalStepSpec] at h
  simp only [List.append_assoc, List.cons_append] at h
  rcases List.mem_append.1 h with h | h
  · rcases mem_actEvsFrom h with ⟨w, st, rfl⟩ | ⟨w, rfl⟩
    · exact Or.inr (Or.inr (Or.inl ⟨w, t, st, rfl⟩))
    · exact Or.inl ⟨w, rfl⟩
  rcases h with _ | ⟨_, h⟩
  · exact Or.inr (Or.inl rfl)
  rcases h with _ | ⟨_, h⟩
  · exact Or.inr (Or.inr (Or.inr (Or.inl ⟨t, _, rfl⟩)))
  rcases List.mem_append.1 h with h | h
  · have : e = Ev.envRender := by
      revert h; cases headless <;> simp
    exact Or.inr (Or.inr (Or.inr (Or.inr (Or.inl this))))
  rcases List.mem_append.1 h with h | h
  · rcases mem_evalEvsFrom h with ⟨w, cs, ca, r, n, d, rfl⟩ | ⟨w, rfl⟩ | ⟨w, rfl⟩
    · exact Or.inr (Or.inr (Or.inr (Or.inr (Or.inr (Or.inl
        ⟨w, t, cs, ca, r, n, d, _, rfl⟩)))))
    · exact Or.inr (Or.inr (Or.inr (Or.inr (Or.inr (Or.inr (Or.inl ⟨w, t, rfl⟩))))))
    · exact Or.inl ⟨w, rfl⟩
  rcases h with _ | ⟨_, h⟩
  · exact Or.inr (Or.inl rfl)
  · revert h
    cases hdn : (env.stepFn t (vstackActions S t T (agents.zip scopes))).2.2.1.any id with
    | false =>
        intro h
        exact absurd h (List.not_mem_nil e)
    | true =>
        intro h
        rcases h with _ | ⟨_, h⟩
        · exact Or.inr (Or.inr (Or.inr (Or.inr (Or.inr (Or.inr (Or.inr
            ⟨rfl, rfl⟩))))))
        · exact absurd h (List.not_mem_nil e)

/-- Stub agent for witnesses: the identity policy (one action row per state
row). -/
def c1agent : AgentM Nat Nat := ⟨fun st _ _ => st⟩

/-- Stub environment for the C1 witness. -/
def c1env : EnvM Nat Nat Nat Nat :=
  ⟨fun _ => [1, 2, 3, 4],
   fun _ _ => ([1, 2, 3, 4], [0, 0, 0, 0], [false, false, false, false], 0)⟩

/-- C1 witness: two workers over scopes `[(0,2),(2,4)]` of a 4-row batch. -/
theorem c1_witness :
    ∃ (lsT : LoopState Nat Nat) (evsT : List (Ev Nat Nat Nat Nat))
      (lsE : LoopState Nat Nat) (evsE : List (Ev Nat Nat Nat Nat)),
      trainTimestep [(0, 2), (2, 4)] c1env 5 true
          ⟨initedWorkers [c1agent, c1agent], [1, 2, 3, 4], 1⟩ 0 = some (lsT, evsT) ∧
      evalTimestep [(0, 2), (2, 4)] c1env 5 true
          ⟨initedWorkers [c1agent, c1agent], [1, 2, 3, 4], 1⟩ 0 = some (lsE, evsE) ∧
      Ev.envStep 0 (vstackActions [1, 2, 3, 4] 0 5
          ([c1agent, c1agent].zip [(0, 2), (2, 4)])) ∈ evsT ∧
      Ev.envStep 0 (vstackActions [1, 2, 3, 4] 0 5
          ([c1agent, c1agent].zip [(0, 2), (2, 4)])) ∈ evsE ∧
      (vstackActions [1, 2, 3, 4] 0 5 ([c1agent, c1agent].zip [(0, 2), (2, 4)])).length
        = 4 ∧
      (∀ p ∈ [c1agent, c1agent].zip [(0, 2), (2, 4)], ∀ i, p.2.1 ≤ i → i < p.2.2 →
        (vstackActions [1, 2, 3, 4] 0 5
            ([c1agent, c1agent].zip [(0, 2), (2, 4)])).get? i =
          (actSlice [1, 2, 3, 4] 0 5 p).get? (i - p.2.1)) :=
  c1_actions_concat [c1agent, c1agent] [(0, 2), (2, 4)] c1env 5 true
    (initedWorkers [c1agent, c1agent]) [1, 2, 3, 4] 1 0 4
    (by decide) (hasAgents_initedWorkers [c1agent, c1agent]) rfl (by decide) (by decide)

/-! ### Claim C5 -/

/-- C5: at the end of each timestep of both loops, `Environment.reset()` is
called and `states` is replaced wholesale exactly when at least one `dones`
entry is true; otherwise `next_states` becomes the new `states` and no reset
happens. -/
theorem c5_reset_iff_any_done {σ β ρ ι : Type} (scopes : List (Nat × Nat))
    (env : EnvM σ β ρ ι) (T : Nat) (headless : Bool) (agents : List (AgentM σ β))
    (workers : List (Worker σ β)) (S : List σ) (rc t : Nat)
    (hag : HasAgents agents workers) (hlen : scopes.length = agents.length) :
    ∃ (lsT : LoopState σ β) (evsT : List (Ev σ β ρ ι)) (lsE : LoopState σ β)
      (evsE : List (Ev σ β ρ ι)),
      trainTimestep scopes env T headless ⟨workers, S, rc⟩ t = some (lsT, evsT) ∧
      evalTimestep scopes env T headless ⟨workers, S, rc⟩ t = some (lsE, evsE) ∧
      (Ev.envReset ∈ evsT ↔
        (env.stepFn t (vstackActions S t T (agents.zip scopes))).2.2.1.any id = true) ∧
      (Ev.envReset ∈ evsE ↔
        (env.stepFn t (vstackActions S t T (agents.zip scopes))).2.2.1.any id = true) ∧
      ((env.stepFn t (vstackActions S t T (agents.zip scopes))).2.2.1.any id = true →
        lsT.states = env.resetFn rc ∧ lsT.resets = rc + 1 ∧
        lsE.states = env.resetFn rc ∧ lsE.resets = rc + 1) ∧
      ((env.stepFn t (vstackActions S t T (agents.zip scopes))).2.2.1.any id = false →
        lsT.states = (env.stepFn t (vstackActions S t T (agents.zip scopes))).1 ∧
        lsT.resets = rc ∧
        lsE.states = (env.stepFn t (vstackActions S t T (agents.zip scopes))).1 ∧
        lsE.resets = rc) := by
  refine ⟨(trainStepSpec scopes env T headless agents S rc t).1,
    (trainStepSpec scopes env T headless agents S rc t).2,
    (evalStepSpec scopes env T headless agents S rc t).1,
    (evalStepSpec scopes env T headless agents S rc t).2,
    trainTimestep_eq scopes env T headless agents workers S rc t hag hlen,
    evalTimestep_eq scopes env T headless agents workers S rc t hag hlen,
    ?_, ?_, ?_, ?_⟩
  · constructor
    · intro hmem
      rcases trainStepSpec_evs_shape hmem with ⟨w, t', h⟩ | ⟨w, h⟩ | h |
        ⟨w, t', st, h⟩ | ⟨t', A', h⟩ | h | ⟨w, t', cs, ca, r, n, d, i, h⟩ |
        ⟨w, t', h⟩ | ⟨hc, h⟩
      · exact absurd h (by simp)
      · exact absurd h (by simp)
      · exact absurd h (by simp)
      · exact absurd h (by simp)
      · exact absurd h (by simp)
      · exact absurd h (by simp)
      · exact absurd h (by simp)
      · exact absurd h (by simp)
      · exact hc
    · intro hc
      simp [trainStepSpec, hc]
  · constructor
    · intro hmem
      rcases evalStepSpec_evs_shape hmem with ⟨w, h⟩ | h |
        ⟨w, t', st, h⟩ | ⟨t', A', h⟩ | h | ⟨w, t', cs, ca, r, n, d, i, h⟩ |
        ⟨w, t', h⟩ | ⟨hc, h⟩
      · exact absurd h (by simp)
      · exact absurd h (by simp)
      · exact absurd h (by simp)
      · exact absurd h (by simp)
      · exact absurd h (by simp)
      · exact absurd h (by simp)
      · exact absurd h (by simp)
      · exact hc
    · intro hc
      simp [evalStepSpec, hc]
  · intro hc
    refine ⟨?_, ?_, ?_, ?_⟩ <;> simp [trainStepSpec, evalStepSpec, hc]
  · intro hc
    refine ⟨?_, ?_, ?_, ?_⟩ <;> simp [trainStepSpec, evalStepSpec, hc]

/-- Stub agent for the C5 scenario: constant-zero actions, one row per state
row. -/
def c5agent : AgentM Nat Nat := ⟨fun st _ _ => st.map fun _ => 0⟩

/-- Stub environment for the C5 scenario: `dones` all false except all true
at timestep 3. -/
def c5env : EnvM Nat Nat Nat Nat :=
  ⟨fun _ => List.replicate 30 0,
   fun t _ => (List.replicate 30 0, List.replicate 30 0,
     List.replicate 30 (decide (t = 3)), 0)⟩

def c5agents : List (AgentM Nat Nat) := [c5agent, c5agent, c5agent]

def c5scopes : List (Nat × Nat) := [(0, 10), (10, 20), (20, 30)]

/-- C5 witness: 3 workers, batch 30, scopes `[(0,10),(10,20),(20,30)]`, 5
timesteps, dones all-false except all-true at timestep 3: the loop performs
exactly one `env.reset()`, and it happens in the timestep-3 iteration. -/
theorem c5_witness :
    (trainLoopSpec c5scopes c5env 5 true c5agents 5 0
        ⟨initedWorkers c5agents, List.replicate 30 0, 1⟩).2.count Ev.envReset = 1 ∧
    ∃ (lsT : LoopState Nat Nat) (evsT : List (Ev Nat Nat Nat Nat)),
      trainTimestep c5scopes c5env 5 true
          ⟨initedWorkers c5agents, List.replicate 30 0, 1⟩ 3 = some (lsT, evsT) ∧
      Ev.envReset ∈ evsT :=
  ⟨by decide,
   by
     obtain ⟨lsT, evsT, lsE, evsE, h1, h2, h3, h4, h5, h6⟩ :=
       c5_reset_iff_any_done c5scopes c5env 5 true c5agents
         (initedWorkers c5agents) (List.replicate 30 0) 1 3
         (hasAgents_initedWorkers c5agents) rfl
     exact ⟨lsT, evsT, h1, h3.mpr (by decide)⟩⟩

/-! ### Segment absence lemmas -/

theorem mem_bootstrapEvs {σ β ρ ι : Type} {n : Nat} {e : Ev σ β ρ ι}
    (h : e ∈ bootstrapEvs n) :
    (∃ p, e = Ev.mkBarrier p) ∨ (∃ w, e = Ev.mkPipe w) ∨ (∃ w, e = Ev.mkQueue w) ∨
      (∃ w, e = Ev.spawn w) ∨ e = Ev.coordBarrier := by
  simp only [bootstrapEvs, List.mem_cons, List.mem_append, List.mem_flatMap,
    List.mem_map, List.mem_singleton] at h
  rcases h with ((rfl | ⟨i, hi, rfl | rfl | h⟩) | ⟨i, hi, rfl⟩) | rfl | h
  · exact Or.inl ⟨n + 1, rfl⟩
  · exact Or.inr (Or.inl ⟨i, rfl⟩)
  · exact Or.inr (Or.inr (Or.inl ⟨i, rfl⟩))
  · exact absurd h (List.not_mem_nil e)
  · exact Or.inr (Or.inr (Or.inr (Or.inl ⟨i, rfl⟩)))
  · exact Or.inr (Or.inr (Or.inr (Or.inr rfl)))
  · exact absurd h (List.not_mem_nil e)

theorem mem_teardownEvs {σ β ρ ι : Type} {n : Nat} {e : Ev σ β ρ ι}
    (h : e ∈ teardownEvs n) :
    (∃ w, e = Ev.sendTerminate w) ∨ (∃ w, e = Ev.joinProcess w) ∨ e = Ev.envClose := by
  simp only [teardownEvs, List.mem_append, List.mem_map, List.mem_singleton] at h
  rcases h with (⟨i, hi, rfl⟩ | ⟨i, hi, rfl⟩) | rfl
  · exact Or.inl ⟨i, rfl⟩
  · exact Or.inr (Or.inl ⟨i, rfl⟩)
  · exact Or.inr (Or.inr rfl)

theorem trainStepSpec_no_close {σ β ρ ι : Type} {scopes : List (Nat × Nat)}
    {env : EnvM σ β ρ ι} {T : Nat} {headless : Bool} {agents : List (AgentM σ β)}
    {S : List σ} {rc t : Nat} :
    Ev.envClose ∉ (trainStepSpec scopes env T headless agents S rc t).2 := by
  intro h
  rcases trainStepSpec_evs_shape h with ⟨w, t', h⟩ | ⟨w, h⟩ | h | ⟨w, t', st, h⟩ |
    ⟨t', A', h⟩ | h | ⟨w, t', cs, ca, r, n, d, i, h⟩ | ⟨w, t', h⟩ | ⟨hc, h⟩ <;>
    simp at h

theorem evalStepSpec_no_close {σ β ρ ι : Type} {scopes : List (Nat × Nat)}
    {env : EnvM σ β ρ ι} {T : Nat} {headless : Bool} {agents : List (AgentM σ β)}
    {S : List σ} {rc t : Nat} :
    Ev.envClose ∉ (evalStepSpec scopes env T headless agents S rc t).2 := by
  intro h
  rcases evalStepSpec_evs_shape h with ⟨w, h⟩ | h | ⟨w, t', st, h⟩ |
    ⟨t', A', h⟩ | h | ⟨w, t', cs, ca, r, n, d, i, h⟩ | ⟨w, t', h⟩ | ⟨hc, h⟩ <;>
    simp at h

theorem evalStepSpec_no_pre {σ β ρ ι : Type} {scopes : List (Nat × Nat)}
    {env : EnvM σ β ρ ι} {T : Nat} {headless : Bool} {agents : List (AgentM σ β)}
    {S : List σ} {rc t : Nat} (w' t'' : Nat) :
    Ev.preInteraction w' t'' ∉ (evalStepSpec scopes env T headless agents S rc t).2 := by
  intro h
  rcases evalStepSpec_evs_shape h with ⟨w, h⟩ | h | ⟨w, t', st, h⟩ |
    ⟨t', A', h⟩ | h | ⟨w, t', cs, ca, r, n, d, i, h⟩ | ⟨w, t', h⟩ | ⟨hc, h⟩ <;>
    simp at h

theorem trainLoopSpec_no_close {σ β ρ ι : Type} (scopes : List (Nat × Nat))
    (env : EnvM σ β ρ ι) (T : Nat) (headless : Bool) (agents : List (AgentM σ β)) :
    ∀ (k t : Nat) (ls : LoopState σ β),
      Ev.envClose ∉ (trainLoopSpec scopes env T headless agents k t ls).2
  | 0, t, ls => List.not_mem_nil _
  | k + 1, t, ls => by
      intro hmem
      simp only [trainLoopSpec, List.mem_append] at hmem
      rcases hmem with h | h
      · exact trainStepSpec_no_close h
      · exact trainLoopSpec_no_close scopes env T headless agents k (t + 1) _ h

theorem evalLoopSpec_no_close {σ β ρ ι : Type} (scopes : List (Nat × Nat))
    (env : EnvM σ β ρ ι) (T : Nat) (headless : Bool) (agents : List (AgentM σ β)) :
    ∀ (k t : Nat) (ls : LoopState σ β),
      Ev.envClose ∉ (evalLoopSpec scopes env T headless agents k t ls).2
  | 0, t, ls => List.not_mem_nil _
  | k + 1, t, ls => by
      intro hmem
      simp only [evalLoopSpec, List.mem_append] at hmem
      rcases hmem with h | h
      · exact evalStepSpec_no_close h
      · exact evalLoopSpec_no_close scopes env T headless agents k (t + 1) _ h

theorem evalLoopSpec_no_pre {σ β ρ ι : Type} (scopes : List (Nat × Nat))
    (env : EnvM σ β ρ ι) (T : Nat) (headless : Bool) (agents : List (AgentM σ β)) :
    ∀ (k t : Nat) (ls : LoopState σ β) (w' t'' : Nat),
      Ev.preInteraction w' t'' ∉ (evalLoopSpec scopes env T headless agents k t ls).2
  | 0, t, ls, w', t'' => List.not_mem_nil _
  | k + 1, t, ls, w', t'' => by
      intro hmem
      simp only [evalLoopSpec, List.mem_append] at hmem
      rcases hmem with h | h
      · exact evalStepSpec_no_pre w' t'' h
      · exact evalLoopSpec_no_pre scopes env T headless agents k (t + 1) _ w' t'' h

theorem initEvsFrom_no_close {σ β ρ ι : Type} (k n : Nat) :
    (Ev.envClose : Ev σ β ρ ι) ∉ initEvsFrom σ β ρ ι k n := by
  intro h
  rcases mem_initEvsFrom h with ⟨w, h⟩ | ⟨w, h⟩ <;> simp at h

theorem bootstrapEvs_no_close {σ β ρ ι : Type} (n : Nat) :
    (Ev.envClose : Ev σ β ρ ι) ∉ bootstrapEvs n := by
  intro h
  rcases mem_bootstrapEvs h with ⟨p, h⟩ | ⟨w, h⟩ | ⟨w, h⟩ | ⟨w, h⟩ | h <;> simp at h

theorem initEvsFrom_no_pre {σ β ρ ι : Type} (k n w' t'' : Nat) :
    (Ev.preInteraction w' t'' : Ev σ β ρ ι) ∉ initEvsFrom σ β ρ ι k n := by
  intro h
  rcases mem_initEvsFrom h with ⟨w, h⟩ | ⟨w, h⟩ <;> simp at h

theorem bootstrapEvs_no_pre {σ β ρ ι : Type} (n w' t'' : Nat) :
    (Ev.preInteraction w' t'' : Ev σ β ρ ι) ∉ bootstrapEvs n := by
  intro h
  rcases mem_bootstrapEvs h with ⟨p, h⟩ | ⟨w, h⟩ | ⟨w, h⟩ | ⟨w, h⟩ | h <;> simp at h

theorem teardownEvs_no_pre {σ β ρ ι : Type} (n w' t'' : Nat) :
    (Ev.preInteraction w' t'' : Ev σ β ρ ι) ∉ teardownEvs n := by
  intro h
  rcases mem_teardownEvs h with ⟨w, h⟩ | ⟨w, h⟩ | h <;> simp at h

/-- Boolean classifier for `envClose` events (used to count them without
assuming decidable equality of the payload types). -/
def isEnvCloseEv {σ β ρ ι : Type} : Ev σ β ρ ι → Bool
  | Ev.envClose => true
  | _ => false

theorem teardownEvs_count_close {σ β ρ ι : Type} (n : Nat) :
    (teardownEvs (σ := σ) (β := β) (ρ := ρ) (ι := ι) n).countP isEnvCloseEv = 1 := by
  have h1 : ((List.range n).map (Ev.sendTerminate : Nat → Ev σ β ρ ι)).countP
      isEnvCloseEv = 0 := by
    rw [List.countP_eq_zero]
    intro e he
    rcases List.mem_map.1 he with ⟨i, hi, rfl⟩
    simp [isEnvCloseEv]
  have h2 : ((List.range n).map (Ev.joinProcess : Nat → Ev σ β ρ ι)).countP
      isEnvCloseEv = 0 := by
    rw [List.countP_eq_zero]
    intro e he
    rcases List.mem_map.1 he with ⟨i, hi, rfl⟩
    simp [isEnvCloseEv]
  simp [teardownEvs, List.countP_append, h1, h2, isEnvCloseEv]

/-! ### Claim C4 -/

/-- C4: one `eval()` timestep runs the same skeleton as one `train()`
timestep except that no pre-interaction command is ever issued and the
recording and post-interaction phases are merged into a single command whose
worker-side effect is the base-class (non-learning) `record_transition`
followed by the base-class `post_interaction`, then one barrier; moreover the
whole `eval()` run contains no pre-interaction call at all. -/
theorem c4_eval_skeleton {σ β ρ ι : Type} (agents : List (AgentM σ β))
    (scopes : List (Nat × Nat)) (env : EnvM σ β ρ ι) (T : Nat) (headless : Bool)
    (workers : List (Worker σ β)) (S : List σ) (rc t t0 : Nat)
    (h2 : 2 ≤ agents.length) (hag : HasAgents agents workers)
    (hlen : scopes.length = agents.length) :
    ∃ (lsT lsE : LoopState σ β) (evsT evsE : List (Ev σ β ρ ι)),
      trainTimestep scopes env T headless ⟨workers, S, rc⟩ t = some (lsT, evsT) ∧
      evalTimestep scopes env T headless ⟨workers, S, rc⟩ t = some (lsE, evsE) ∧
      ∃ (core resetPart recPart evalPart : List (Ev σ β ρ ι)),
        evsT = preEvsFrom σ β ρ ι t 0 agents.length ++ Ev.coordBarrier :: core ++
          recPart ++ Ev.coordBarrier :: postEvsFrom σ β ρ ι t 0 agents.length ++
          Ev.coordBarrier :: resetPart ∧
        evsE = core ++ evalPart ++ Ev.coordBarrier :: resetPart ∧
        (∀ e ∈ evalPart,
          (∃ w cs ca r n d, e = Ev.baseRecordTransition w t cs ca r n d
            (env.stepFn t (vstackActions S t T (agents.zip scopes))).2.2.2) ∨
          (∃ w, e = Ev.basePostInteraction w t) ∨ (∃ w, e = Ev.workerBarrier w)) ∧
        (∀ w' t'' : Nat, Ev.preInteraction w' t'' ∉ evsE) ∧
        (∀ tr : List (Ev σ β ρ ι),
          evalRun agents scopes env t0 T headless = some tr →
          ∀ w' t'' : Nat, Ev.preInteraction w' t'' ∉ tr) := by
  refine ⟨(trainStepSpec scopes env T headless agents S rc t).1,
    (evalStepSpec scopes env T headless agents S rc t).1,
    (trainStepSpec scopes env T headless agents S rc t).2,
    (evalStepSpec scopes env T headless agents S rc t).2,
    trainTimestep_eq scopes env T headless agents workers S rc t hag hlen,
    evalTimestep_eq scopes env T headless agents workers S rc t hag hlen,
    actEvsFrom ρ ι S t T 0 (agents.zip scopes) ++ Ev.coordBarrier ::
      Ev.envStep t (vstackActions S t T (agents.zip scopes)) ::
      (if headless then [] else [Ev.envRender]),
    (if (env.stepFn t (vstackActions S t T (agents.zip scopes))).2.2.1.any id
      then [Ev.envReset] else []),
    recEvsFrom ρ ι t (env.stepFn t (vstackActions S t T (agents.zip scopes))).2.1
      (env.stepFn t (vstackActions S t T (agents.zip scopes))).1
      (env.stepFn t (vstackActions S t T (agents.zip scopes))).2.2.1
      (env.stepFn t (vstackActions S t T (agents.zip scopes))).2.2.2 0
      ((actedWorkers S t T (agents.zip scopes)).zip scopes),
    evalEvsFrom ρ ι t (env.stepFn t (vstackActions S t T (agents.zip scopes))).2.1
      (env.stepFn t (vstackActions S t T (agents.zip scopes))).1
      (env.stepFn t (vstackActions S t T (agents.zip scopes))).2.2.1
      (env.stepFn t (vstackActions S t T (agents.zip scopes))).2.2.2 0
      ((actedWorkers S t T (agents.zip scopes)).zip scopes),
    ?_, ?_, ?_, ?_, ?_⟩
  · simp [trainStepSpec, List.append_assoc, List.cons_append]
  · simp [evalStepSpec, List.append_assoc, List.cons_append]
  · intro e he
    exact mem_evalEvsFrom he
  · intro w' t''
    exact evalStepSpec_no_pre w' t''
  · intro tr htr w' t'' hmem
    rw [evalRun_eq agents scopes env t0 T headless h2 hlen] at htr
    rw [Option.some_inj] at htr
    subst htr
    rcases List.mem_append.1 hmem with h | h
    · rcases List.mem_append.1 h with h | h
      · rcases List.mem_append.1 h with h | h
        · exact bootstrapEvs_no_pre agents.length w' t'' h
        · exact initEvsFrom_no_pre 0 agents.length w' t'' h
      · rcases List.mem_cons.1 h with heq | h
        · simp at heq
        rcases List.mem_cons.1 h with heq | h
        · simp at heq
        exact evalLoopSpec_no_pre scopes env T headless agents _ _ _ w' t'' h
    · exact teardownEvs_no_pre agents.length w' t'' h

/-- C4 witness: two workers, one concrete timestep. -/
theorem c4_witness :
    ∃ (lsT lsE : LoopState Nat Nat) (evsT evsE : List (Ev Nat Nat Nat Nat)),
      trainTimestep [(0, 2), (2, 4)] c1env 5 true
          ⟨initedWorkers [c1agent, c1agent], [1, 2, 3, 4], 1⟩ 0 = some (lsT, evsT) ∧
      evalTimestep [(0, 2), (2, 4)] c1env 5 true
          ⟨initedWorkers [c1agent, c1agent], [1, 2, 3, 4], 1⟩ 0 = some (lsE, evsE) ∧
      ∃ (core resetPart recPart evalPart : List (Ev Nat Nat Nat Nat)),
        evsT = preEvsFrom Nat Nat Nat Nat 0 0 2 ++ Ev.coordBarrier :: core ++
          recPart ++ Ev.coordBarrier :: postEvsFrom Nat Nat Nat Nat 0 0 2 ++
          Ev.coordBarrier :: resetPart ∧
        evsE = core ++ evalPart ++ Ev.coordBarrier :: resetPart ∧
        (∀ e ∈ evalPart,
          (∃ w cs ca r n d, e = Ev.baseRecordTransition w 0 cs ca r n d
            (c1env.stepFn 0 (vstackActions [1, 2, 3, 4] 0 5
              ([c1agent, c1agent].zip [(0, 2), (2, 4)]))).2.2.2) ∨
          (∃ w, e = Ev.basePostInteraction w 0) ∨ (∃ w, e = Ev.workerBarrier w)) ∧
        (∀ w' t'' : Nat, Ev.preInteraction w' t'' ∉ evsE) ∧
        (∀ tr : List (Ev Nat Nat Nat Nat),
          evalRun [c1agent, c1agent] [(0, 2), (2, 4)] c1env 0 5 true = some tr →
          ∀ w' t'' : Nat, Ev.preInteraction w' t'' ∉ tr) :=
  c4_eval_skeleton [c1agent, c1agent] [(0, 2), (2, 4)] c1env 5 true
    (initedWorkers [c1agent, c1agent]) [1, 2, 3, 4] 1 0 0
    (by decide) (hasAgents_initedWorkers [c1agent, c1agent]) rfl

/-! ### Claim C8 -/

/-- C8: after the timestep loop of `train()` or `eval()`, a `terminate`
command goes to every worker — on which the dispatch loop exits immediately,
with no event and no final barrier wait — then every worker process is
joined, and `Environment.close()` is called exactly once, after all the
joins: the trace ends with the teardown block (terminate sends, then joins,
then the single `envClose`), and `envClose` occurs exactly once in the whole
trace. -/
theorem c8_termination {σ β ρ ι : Type} (agents : List (AgentM σ β))
    (scopes : List (Nat × Nat)) (env : EnvM σ β ρ ι) (t0 T : Nat) (headless : Bool)
    (h2 : 2 ≤ agents.length) (hlen : scopes.length = agents.length) :
    (∀ (scope : Nat × Nat) (widx t' T' : Nat) (q : List (QVal σ β ρ ι))
      (w : Worker σ β),
      fn_dispatch scope widx ⟨termTask, t', T'⟩ q w = some (w, [], [], true)) ∧
    (∃ tr pre : List (Ev σ β ρ ι),
      trainRun agents scopes env t0 T headless = some tr ∧
      tr = pre ++ teardownEvs agents.length ∧
      tr.countP isEnvCloseEv = 1) ∧
    (∃ tr pre : List (Ev σ β ρ ι),
      evalRun agents scopes env t0 T headless = some tr ∧
      tr = pre ++ teardownEvs agents.length ∧
      tr.countP isEnvCloseEv = 1) ∧
    teardownEvs (σ := σ) (β := β) (ρ := ρ) (ι := ι) agents.length =
      (List.range agents.length).map Ev.sendTerminate ++
        (List.range agents.length).map Ev.joinProcess ++ [Ev.envClose] := by
  have hiff : ∀ e : Ev σ β ρ ι, isEnvCloseEv e = true ↔ e = Ev.envClose := by
    intro e; cases e <;> simp [isEnvCloseEv]
  refine ⟨fun scope widx t' T' q w => fn_dispatch_term scope widx t' T' q w,
    ?_, ?_, rfl⟩
  · refine ⟨_, bootstrapEvs agents.length ++ initEvsFrom σ β ρ ι 0 agents.length ++
      Ev.coordBarrier :: Ev.envReset ::
      (trainLoopSpec scopes env T headless agents (T - t0) t0
        ⟨initedWorkers agents, env.resetFn 0, 1⟩).2,
      trainRun_eq agents scopes env t0 T headless h2 hlen, rfl, ?_⟩
    rw [List.countP_append, teardownEvs_count_close]
    have hz : (bootstrapEvs agents.length ++ initEvsFrom σ β ρ ι 0 agents.length ++
        Ev.coordBarrier :: Ev.envReset ::
        (trainLoopSpec scopes env T headless agents (T - t0) t0
          ⟨initedWorkers agents, env.resetFn 0, 1⟩).2).countP isEnvCloseEv = 0 := by
      rw [List.countP_eq_zero]
      intro e he hce
      rw [hiff e] at hce
      subst hce
      rcases List.mem_append.1 he with h | h
      · rcases List.mem_append.1 h with h | h
        · exact bootstrapEvs_no_close agents.length h
        · exact initEvsFrom_no_close 0 agents.length h
      · rcases List.mem_cons.1 h with heq | h
        · simp at heq
        rcases List.mem_cons.1 h with heq | h
        · simp at heq
        exact trainLoopSpec_no_close scopes env T headless agents _ _ _ h
    rw [hz]
  · refine ⟨_, bootstrapEvs agents.length ++ initEvsFrom σ β ρ ι 0 agents.length ++
      Ev.coordBarrier :: Ev.envReset ::
      (evalLoopSpec scopes env T headless agents (T - t0) t0
        ⟨initedWorkers agents, env.resetFn 0, 1⟩).2,
      evalRun_eq agents scopes env t0 T headless h2 hlen, rfl, ?_⟩
    rw [List.countP_append, teardownEvs_count_close]
    have hz : (bootstrapEvs agents.length ++ initEvsFrom σ β ρ ι 0 agents.length ++
        Ev.coordBarrier :: Ev.envReset ::
        (evalLoopSpec scopes env T headless agents (T - t0) t0
          ⟨initedWorkers agents, env.resetFn 0, 1⟩).2).countP isEnvCloseEv = 0 := by
      rw [List.countP_eq_zero]
      intro e he hce
      rw [hiff e] at hce
      subst hce
      rcases List.mem_append.1 he with h | h
      · rcases List.mem_append.1 h with h | h
        · exact bootstrapEvs_no_close agents.length h
        · exact initEvsFrom_no_close 0 agents.length h
      · rcases List.mem_cons.1 h with heq | h
        · simp at heq
        rcases List.mem_cons.1 h with heq | h
        · simp at heq
        exact evalLoopSpec_no_close scopes env T headless agents _ _ _ h
    rw [hz]

/-- C8 witness: a concrete two-worker run. -/
theorem c8_witness :
    fn_dispatch (σ := Nat) (β := Nat) (ρ := Nat) (ι := Nat) (0, 2) 0
        ⟨termTask, 0, 0⟩ [] initialWorker = some (initialWorker, [], [], true) ∧
    ∃ tr pre : List (Ev Nat Nat Nat Nat),
      trainRun [c1agent, c1agent] [(0, 2), (2, 4)] c1env 0 2 true = some tr ∧
      tr = pre ++ teardownEvs 2 ∧
      tr.countP isEnvCloseEv = 1 :=
  ⟨(c8_termination [c1agent, c1agent] [(0, 2), (2, 4)] c1env 0 2 true
      (by decide) rfl).1 (0, 2) 0 0 0 [] initialWorker,
   ((c8_termination [c1agent, c1agent] [(0, 2), (2, 4)] c1env 0 2 true
      (by decide) rfl).2).1⟩

/-! ### Small-step protocol model (claim C2)

The lock-step model above fixes one interleaving; the phase-ordering claim is
about *every* interleaving, so the message protocol of `train()` is also
given a small-step semantics: the coordinator walks its script of sends and
barrier waits (lines 174-243), each worker's pipe is a FIFO, a worker that
has processed a command blocks on the barrier (lines 49-96), and the barrier
releases only when the coordinator and all `n` workers — all `n + 1`
parties of `mp.Barrier(self.num_agents + 1)`, line 148 — have arrived. -/

/-- Protocol messages of the `train()` run. -/
inductive PMsg
  | initM
  | preM (t : Nat)
  | actM (t : Nat)
  | recM (t : Nat)
  | postM (t : Nat)
  | termM
deriving DecidableEq

/-- Coordinator script events: a send to every worker, or a barrier wait. -/
inductive CE
  | send (m : PMsg)
  | bar
deriving DecidableEq

/-- The coordinator's per-timestep script, lines 187-230: each phase is a
send to all workers followed by a barrier wait. -/
def phaseScript (t0 : Nat) : Nat → List CE
  | 0 => []
  | k + 1 =>
      CE.send (PMsg.preM t0) :: CE.bar :: CE.send (PMsg.actM t0) :: CE.bar ::
      CE.send (PMsg.recM t0) :: CE.bar :: CE.send (PMsg.postM t0) :: CE.bar ::
      phaseScript (t0 + 1) k

/-- The coordinator's full script: the spawn barrier (line 174), the init
send and barrier (lines 176-180), the timestep loop, the terminate send
(lines 241-243). -/
def coordScript (t0 k : Nat) : List CE :=
  CE.bar :: CE.send PMsg.initM :: CE.bar :: phaseScript t0 k ++ [CE.send PMsg.termM]

/-- The messages of the timestep loop in send order. -/
def msgBlocks (t0 : Nat) : Nat → List PMsg
  | 0 => []
  | k + 1 =>
      PMsg.preM t0 :: PMsg.actM t0 :: PMsg.recM t0 :: PMsg.postM t0 ::
      msgBlocks (t0 + 1) k

/-- The messages sent by a script, in order. -/
def sends : List CE → List PMsg :=
  List.filterMap fun e =>
    match e with
    | CE.send m => some m
    | CE.bar => none

/-- All messages the coordinator sends to each worker, in order. -/
def sentMsgs (t0 k : Nat) : List PMsg :=
  PMsg.initM :: msgBlocks t0 k ++ [PMsg.termM]

theorem sends_phaseScript : ∀ (k t0 : Nat), sends (phaseScript t0 k) = msgBlocks t0 k
  | 0, t0 => rfl
  | k + 1, t0 => by
      simp only [phaseScript, msgBlocks, sends, List.filterMap_cons]
      simpa [sends] using sends_phaseScript k (t0 + 1)

theorem sends_coordScript (t0 k : Nat) : sends (coordScript t0 k) = sentMsgs t0 k := by
  simp only [coordScript, sentMsgs, sends, List.filterMap_cons, List.filterMap_append]
  simpa [sends] using sends_phaseScript k t0

/-- Protocol state: the coordinator's remaining script and barrier flag, and
per worker its pipe contents (FIFO), its log of processed commands, its
at-barrier flag and its exit flag. -/
structure Sys (n : Nat) where
  script : List CE
  coordAtBar : Bool
  pipes : Fin n → List PMsg
  logs : Fin n → List PMsg
  atBar : Fin n → Bool
  done : Fin n → Bool

/-- Initial protocol state: full script, empty pipes and logs, every worker
already waiting at the spawn barrier (line 34). -/
def pSysInit (n t0 k : Nat) : Sys n :=
  ⟨coordScript t0 k, false, fun _ => [], fun _ => [], fun _ => true, fun _ => false⟩

/-- One interleaved step of the protocol. -/
inductive PStep (n : Nat) : Sys n → Sys n → Prop
  | csend (s : Sys n) (m : PMsg) (rest : List CE) :
      s.script = CE.send m :: rest → s.coordAtBar = false →
      PStep n s (Sys.mk rest false (fun j => s.pipes j ++ [m]) s.logs s.atBar s.done)
  | cbar (s : Sys n) (rest : List CE) :
      s.script = CE.bar :: rest → s.coordAtBar = false →
      PStep n s (Sys.mk rest true s.pipes s.logs s.atBar s.done)
  | wproc (s : Sys n) (w : Fin n) (m : PMsg) (rest : List PMsg) :
      s.done w = false → s.atBar w = false → s.pipes w = m :: rest →
      m ≠ PMsg.termM →
      PStep n s (Sys.mk s.script s.coordAtBar (Function.update s.pipes w rest)
        (Function.update s.logs w (s.logs w ++ [m]))
        (Function.update s.atBar w true) s.done)
  | wterm (s : Sys n) (w : Fin n) (rest : List PMsg) :
      s.done w = false → s.atBar w = false → s.pipes w = PMsg.termM :: rest →
      PStep n s (Sys.mk s.script s.coordAtBar (Function.update s.pipes w rest)
        s.logs s.atBar (Function.update s.done w true))
  | brel (s : Sys n) :
      s.coordAtBar = true → (∀ w, s.atBar w = true) →
      PStep n s (Sys.mk s.script false s.pipes s.logs (fun _ => false) s.done)

/-- The commands a worker has consumed from its pipe (its log, plus the
terminate message once it has exited). -/
def processedOf {n : Nat} (s : Sys n) (w : Fin n) : List PMsg :=
  s.logs w ++ if s.done w then [PMsg.termM] else []

/-- Protocol invariant: per worker, processed commands, then the pipe
contents, then the not-yet-sent messages, is exactly the canonical send
order. -/
def ProtoInv (t0 k : Nat) {n : Nat} (s : Sys n) : Prop :=
  ∀ w, processedOf s w ++ s.pipes w ++ sends s.script = sentMsgs t0 k

theorem protoInv_step {n t0 k : Nat} {s s' : Sys n} (hstep : PStep n s s')
    (hinv : ProtoInv t0 k (n := n) s) : ProtoInv t0 k s' := by
  intro w
  cases hstep with
  | csend m rest hscript hbar =>
      have h := hinv w
      rw [hscript] at h
      simp only [processedOf, sends, List.filterMap_cons] at h ⊢
      simp only [List.append_assoc, List.singleton_append, List.cons_append] at h ⊢
      exact h
  | cbar rest hscript hbar =>
      have h := hinv w
      rw [hscript] at h
      simp only [processedOf, sends, List.filterMap_cons] at h ⊢
      exact h
  | wproc w' m rest hdone hbar hpipe hne =>
      have h := hinv w
      by_cases hww : w = w'
      · subst hww
        rw [hpipe] at h
        simp only [processedOf, hdone, Function.update_same, if_false,
          Bool.false_eq_true] at h ⊢
        simp only [List.append_assoc, List.append_nil, List.cons_append,
          List.singleton_append, List.nil_append] at h ⊢
        exact h
      · simp only [processedOf, Function.update_noteq hww]
        exact h
  | wterm w' rest hdone hbar hpipe =>
      have h := hinv w
      by_cases hww : w = w'
      · subst hww
        rw [hpipe] at h
        simp only [processedOf, hdone, Function.update_same, if_false, if_true,
          Bool.false_eq_true] at h ⊢
        simp only [List.append_assoc, List.append_nil, List.cons_append,
          List.singleton_append, List.nil_append] at h ⊢
        exact h
      · simp only [processedOf, Function.update_noteq hww]
        exact h
  | brel hc hall =>
      exact hinv w

/-- Reachability from the initial protocol state. -/
def Reach (n t0 k : Nat) : Sys n → Prop :=
  Relation.ReflTransGen (PStep n) (pSysInit n t0 k)

theorem protoInv_reach {n t0 k : Nat} {s : Sys n} (h : Reach n t0 k s) :
    ProtoInv t0 k s := by
  induction h with
  | refl =>
      intro w
      simp [pSysInit, processedOf, sends_coordScript]
  | tail hr hstep ih => exact protoInv_step hstep ih

/-- In every reachable state, each worker's log is a prefix of the canonical
send order. -/
theorem logs_pref {n t0 k : Nat} {s : Sys n} (h : Reach n t0 k s) (w : Fin n) :
    ∃ r, s.logs w ++ r = sentMsgs t0 k := by
  have hw := protoInv_reach h w
  refine ⟨(if s.done w then [PMsg.termM] else []) ++ s.pipes w ++ sends s.script, ?_⟩
  simpa [processedOf, List.append_assoc] using hw

theorem mem_msgBlocks : ∀ {t0 k : Nat} {m : PMsg}, m ∈ msgBlocks t0 k →
    ∃ t, t0 ≤ t ∧ t < t0 + k ∧
      (m = PMsg.preM t ∨ m = PMsg.actM t ∨ m = PMsg.recM t ∨ m = PMsg.postM t)
  | t0, 0, m, h => absurd h (List.not_mem_nil m)
  | t0, k + 1, m, h => by
      rcases h with _ | ⟨_, h⟩
      · exact ⟨t0, le_refl t0, by omega, Or.inl rfl⟩
      rcases h with _ | ⟨_, h⟩
      · exact ⟨t0, le_refl t0, by omega, Or.inr (Or.inl rfl)⟩
      rcases h with _ | ⟨_, h⟩
      · exact ⟨t0, le_refl t0, by omega, Or.inr (Or.inr (Or.inl rfl))⟩
      rcases h with _ | ⟨_, h⟩
      · exact ⟨t0, le_refl t0, by omega, Or.inr (Or.inr (Or.inr rfl))⟩
      obtain ⟨t, h1, h2, h3⟩ := mem_msgBlocks h
      exact ⟨t, by omega, by omega, h3⟩

theorem msgBlocks_decomp_rec : ∀ {k t0 t : Nat}, t0 ≤ t → t < t0 + k →
    ∃ A B, msgBlocks t0 k = A ++ PMsg.recM t :: B ∧ PMsg.actM t ∈ A ∧
      PMsg.recM t ∉ A
  | 0, t0, t, h1, h2 => by omega
  | k + 1, t0, t, h1, h2 => by
      by_cases ht : t = t0
      · subst ht
        exact ⟨[PMsg.preM t, PMsg.actM t],
          PMsg.postM t :: msgBlocks (t + 1) k, rfl, by simp, by simp⟩
      · obtain ⟨A, B, heq, hact, hnot⟩ :=
          @msgBlocks_decomp_rec k (t0 + 1) t (by omega) (by omega)
        refine ⟨PMsg.preM t0 :: PMsg.actM t0 :: PMsg.recM t0 :: PMsg.postM t0 :: A,
          B, by simp [msgBlocks, heq], by simp [hact], ?_⟩
        intro hmem
        simp only [List.mem_cons] at hmem
        rcases hmem with h | h | h | h | h
        · exact PMsg.noConfusion h
        · exact PMsg.noConfusion h
        · exact ht (PMsg.recM.inj h)
        · exact PMsg.noConfusion h
        · exact hnot h

theorem msgBlocks_decomp_act : ∀ {k t0 t : Nat}, t0 ≤ t → t + 1 < t0 + k →
    ∃ A B, msgBlocks t0 k = A ++ PMsg.actM (t + 1) :: B ∧ PMsg.postM t ∈ A ∧
      PMsg.actM (t + 1) ∉ A
  | 0, t0, t, h1, h2 => by omega
  | k + 1, t0, t, h1, h2 => by
      by_cases ht : t = t0
      · subst ht
        obtain ⟨k', rfl⟩ : ∃ k', k = k' + 1 := ⟨k - 1, by omega⟩
        refine ⟨[PMsg.preM t, PMsg.actM t, PMsg.recM t, PMsg.postM t,
          PMsg.preM (t + 1)],
          PMsg.recM (t + 1) :: PMsg.postM (t + 1) :: msgBlocks (t + 2) k',
          rfl, by simp, ?_⟩
        intro hmem
        simp only [List.mem_cons, List.not_mem_nil, or_false] at hmem
        rcases hmem with h | h | h | h | h
        · exact PMsg.noConfusion h
        · have := PMsg.actM.inj h
          omega
        · exact PMsg.noConfusion h
        · exact PMsg.noConfusion h
        · exact PMsg.noConfusion h
      · obtain ⟨A, B, heq, hpost, hnot⟩ :=
          @msgBlocks_decomp_act k (t0 + 1) t (by omega) (by omega)
        refine ⟨PMsg.preM t0 :: PMsg.actM t0 :: PMsg.recM t0 :: PMsg.postM t0 :: A,
          B, by simp [msgBlocks, heq], by simp [hpost], ?_⟩
        intro hmem
        simp only [List.mem_cons] at hmem
        rcases hmem with h | h | h | h | h
        · exact PMsg.noConfusion h
        · have := PMsg.actM.inj h
          omega
        · exact PMsg.noConfusion h
        · exact PMsg.noConfusion h
        · exact hnot h

theorem sentMsgs_decomp_rec {t0 k t : Nat} (h1 : t0 ≤ t) (h2 : t < t0 + k) :
    ∃ A B, sentMsgs t0 k = A ++ PMsg.recM t :: B ∧ PMsg.actM t ∈ A ∧
      PMsg.recM t ∉ A := by
  obtain ⟨A, B, heq, hact, hnot⟩ := msgBlocks_decomp_rec h1 h2
  refine ⟨PMsg.initM :: A, B ++ [PMsg.termM], ?_, List.mem_cons_of_mem _ hact, ?_⟩
  · simp [sentMsgs, heq]
  · intro hmem
    rcases hmem with _ | ⟨_, hmem⟩
    exact hnot hmem

theorem sentMsgs_decomp_act {t0 k t : Nat} (h1 : t0 ≤ t) (h2 : t + 1 < t0 + k) :
    ∃ A B, sentMsgs t0 k = A ++ PMsg.actM (t + 1) :: B ∧ PMsg.postM t ∈ A ∧
      PMsg.actM (t + 1) ∉ A := by
  obtain ⟨A, B, heq, hpost, hnot⟩ := msgBlocks_decomp_act h1 h2
  refine ⟨PMsg.initM :: A, B ++ [PMsg.termM], ?_, List.mem_cons_of_mem _ hpost, ?_⟩
  · simp [sentMsgs, heq]
  · intro hmem
    rcases hmem with _ | ⟨_, hmem⟩
    exact hnot hmem

/-- A two-element ordered occurrence transfers from a decomposed full list to
any of its prefixes that contains the second element. -/
theorem pair_sublist_of_pref {α : Type} {l r A B : List α} {x y : α}
    (hl : l ++ r = A ++ y :: B) (hx : x ∈ A) (hy : y ∈ l) (hyA : y ∉ A) :
    List.Sublist [x, y] l := by
  have hAl : A.length < l.length := by
    by_contra hle
    push_neg at hle
    have hltake : l = A.take l.length := by
      have h1 : (l ++ r).take l.length = l := List.take_left l r
      rw [hl] at h1
      rw [List.take_append_eq_append_take] at h1
      have hz : l.length - A.length = 0 := by omega
      rw [hz] at h1
      simpa using h1.symm
    exact hyA (List.take_subset _ _ (hltake ▸ hy))
  have htake : l.take (A.length + 1) = A ++ [y] := by
    have h1 : (l ++ r).take (A.length + 1) = l.take (A.length + 1) := by
      rw [List.take_append_eq_append_take]
      have hz : A.length + 1 - l.length = 0 := by omega
      rw [hz]
      simp
    have h2 : (A ++ y :: B).take (A.length + 1) = A ++ [y] := by
      rw [List.take_append_eq_append_take]
      have hz : A.length + 1 - A.length = 1 := by omega
      rw [hz]
      simp [List.take_of_length_le (le_of_lt (Nat.lt_succ_self A.length))]
    rw [hl] at h1
    rw [h2] at h1
    exact h1.symm
  have hsub : List.Sublist [x, y] (A ++ [y]) := by
    have hx1 : List.Sublist [x] A := List.singleton_sublist.mpr hx
    exact List.Sublist.append hx1 (List.Sublist.refl [y])
  have hsub2 : List.Sublist [x, y] (l.take (A.length + 1)) := htake ▸ hsub
  exact hsub2.trans (List.take_sublist _ _)

theorem recM_mem_bounds {t0 k t : Nat} (h : PMsg.recM t ∈ sentMsgs t0 k) :
    t0 ≤ t ∧ t < t0 + k := by
  rcases List.mem_cons.1 h with heq | h
  · exact absurd heq (by simp)
  rcases List.mem_append.1 h with h | h
  · obtain ⟨t', h1, h2, h3⟩ := mem_msgBlocks h
    rcases h3 with h3 | h3 | h3 | h3
    · exact PMsg.noConfusion h3
    · exact PMsg.noConfusion h3
    · rw [PMsg.recM.inj h3]
      exact ⟨h1, h2⟩
    · exact PMsg.noConfusion h3
  · rcases List.mem_singleton.1 h with h
    exact PMsg.noConfusion h

theorem actM_mem_bounds {t0 k t : Nat} (h : PMsg.actM t ∈ sentMsgs t0 k) :
    t0 ≤ t ∧ t < t0 + k := by
  rcases List.mem_cons.1 h with heq | h
  · exact absurd heq (by simp)
  rcases List.mem_append.1 h with h | h
  · obtain ⟨t', h1, h2, h3⟩ := mem_msgBlocks h
    rcases h3 with h3 | h3 | h3 | h3
    · exact PMsg.noConfusion h3
    · rw [PMsg.actM.inj h3]
      exact ⟨h1, h2⟩
    · exact PMsg.noConfusion h3
    · exact PMsg.noConfusion h3
  · rcases List.mem_singleton.1 h with h
    exact PMsg.noConfusion h

theorem phaseScript_decomp : ∀ {k t0 t : Nat}, t0 ≤ t → t < t0 + k →
    ∃ A B, phaseScript t0 k = A ++ CE.send (PMsg.preM t) :: CE.bar ::
      CE.send (PMsg.actM t) :: CE.bar :: CE.send (PMsg.recM t) :: CE.bar ::
      CE.send (PMsg.postM t) :: CE.bar :: B
  | 0, t0, t, h1, h2 => by omega
  | k + 1, t0, t, h1, h2 => by
      by_cases ht : t = t0
      · subst ht
        exact ⟨[], phaseScript (t + 1) k, rfl⟩
      · obtain ⟨A, B, heq⟩ :=
          @phaseScript_decomp k (t0 + 1) t (by omega) (by omega)
        exact ⟨CE.send (PMsg.preM t0) :: CE.bar :: CE.send (PMsg.actM t0) ::
          CE.bar :: CE.send (PMsg.recM t0) :: CE.bar :: CE.send (PMsg.postM t0) ::
          CE.bar :: A, B, by simp [phaseScript, heq]⟩

theorem coordScript_decomp {t0 k t : Nat} (h1 : t0 ≤ t) (h2 : t < t0 + k) :
    ∃ A B, coordScript t0 k = A ++ CE.send (PMsg.preM t) :: CE.bar ::
      CE.send (PMsg.actM t) :: CE.bar :: CE.send (PMsg.recM t) :: CE.bar ::
      CE.send (PMsg.postM t) :: CE.bar :: B := by
  obtain ⟨A, B, heq⟩ := phaseScript_decomp h1 h2
  exact ⟨CE.bar :: CE.send PMsg.initM :: CE.bar :: A, B ++ [CE.send PMsg.termM],
    by simp [coordScript, heq]⟩

/-! ### Claim C2 -/

/-- C2: in the multi-worker `train()` protocol, under every interleaving of
coordinator and worker steps: each worker observes commands only as a prefix
of the canonical order init, then per timestep pre-interaction, act,
record-transition, post-interaction, then terminate; hence no worker observes
`record_transition` of a timestep before `act` of the same timestep, and none
observes `act` of timestep `t+1` before having completed `post_interaction`
of timestep `t`.  The barrier releases only when the coordinator and all `n`
workers have arrived (all `n+1` parties), each command phase of the
coordinator script is followed by a barrier wait in the strict order pre,
act, rec, post, and within the coordinator's lock-step timestep the order of
effects is pre-interaction, barrier, act, barrier, `Environment.step`,
render, record-transition, barrier, post-interaction, barrier, reset-check
(the trace `trainStepSpec`). -/
theorem c2_phase_ordering {n t0 k : Nat} (hn : 2 ≤ n) {s : Sys n}
    (hr : Reach n t0 k s) (w : Fin n) :
    (∃ r, s.logs w ++ r = sentMsgs t0 k) ∧
    (∀ t, PMsg.recM t ∈ s.logs w →
      List.Sublist [PMsg.actM t, PMsg.recM t] (s.logs w)) ∧
    (∀ t, t0 ≤ t → PMsg.actM (t + 1) ∈ s.logs w →
      List.Sublist [PMsg.postM t, PMsg.actM (t + 1)] (s.logs w)) ∧
    (∀ s₁ s₂ : Sys n, PStep n s₁ s₂ → s₁.coordAtBar = true →
      s₂.coordAtBar = false → ∀ w' : Fin n, s₁.atBar w' = true) ∧
    (∀ t, t0 ≤ t → t < t0 + k → ∃ A B, coordScript t0 k =
      A ++ CE.send (PMsg.preM t) :: CE.bar :: CE.send (PMsg.actM t) :: CE.bar ::
      CE.send (PMsg.recM t) :: CE.bar :: CE.send (PMsg.postM t) :: CE.bar :: B) ∧
    (∀ (σ β ρ ι : Type) (agents : List (AgentM σ β)) (scopes : List (Nat × Nat))
      (env : EnvM σ β ρ ι) (T : Nat) (headless : Bool)
      (workers : List (Worker σ β)) (S : List σ) (rc t : Nat),
      HasAgents agents workers → scopes.length = agents.length →
      trainTimestep scopes env T headless ⟨workers, S, rc⟩ t =
        some (trainStepSpec scopes env T headless agents S rc t)) := by
  obtain ⟨r, hpr⟩ := logs_pref hr w
  refine ⟨⟨r, hpr⟩, ?_, ?_, ?_, ?_, ?_⟩
  · intro t hmem
    have hmem' : PMsg.recM t ∈ sentMsgs t0 k := by
      rw [← hpr]
      exact List.mem_append_left r hmem
    obtain ⟨hb1, hb2⟩ := recM_mem_bounds hmem'
    obtain ⟨A, B, heq, hact, hnot⟩ := sentMsgs_decomp_rec hb1 hb2
    exact pair_sublist_of_pref (hpr.trans heq) hact hmem hnot
  · intro t ht hmem
    have hmem' : PMsg.actM (t + 1) ∈ sentMsgs t0 k := by
      rw [← hpr]
      exact List.mem_append_left r hmem
    obtain ⟨hb1, hb2⟩ := actM_mem_bounds hmem'
    obtain ⟨A, B, heq, hpost, hnot⟩ := sentMsgs_decomp_act ht hb2
    exact pair_sublist_of_pref (hpr.trans heq) hpost hmem hnot
  · intro s₁ s₂ hstep hc1 hc2 w'
    cases hstep with
    | csend m rest hscript hbar => exact absurd hc1 (by rw [hbar]; simp)
    | cbar rest hscript hbar => exact absurd hc2 (by simp)
    | wproc w'' m rest hdone hbar hpipe hne => exact absurd hc2 (by simp [hc1])
    | wterm w'' rest hdone hbar hpipe => exact absurd hc2 (by simp [hc1])
    | brel hc hall => exact hall w'
  · intro t h1 h2
    exact coordScript_decomp h1 h2
  · intro σ β ρ ι agents scopes env T headless workers S rc t hag hlen
    exact trainTimestep_eq scopes env T headless agents workers S rc t hag hlen

/-- C2 witness: the initial two-worker protocol state over three timesteps. -/
theorem c2_witness :
    ∃ r, (pSysInit 2 0 3).logs ⟨0, by decide⟩ ++ r = sentMsgs 0 3 :=
  (c2_phase_ordering (by decide) Relation.ReflTransGen.refl ⟨0, by decide⟩).1

/-! ### Claim C7: eager scope validation (spec-modelled) -/

/-- The configuration error of the orchestrator's eager validation. -/
structure ConfigurationError where
  message : String
deriving DecidableEq

def scopeCountMsg : String := "scope count does not match agent count"

def tilingMsg : String := "scopes do not exactly tile the batch"

/-- Modelled from the spec: the ScopeTable invariant — the scope validation
lives in the `Trainer` base class (`skrl/trainers/torch/base.py`), which is
not among the reviewed sources.  Per the specification, the scope ranges must
tile `[0, batch_size)` exactly: every batch index is covered by exactly one
scope (union equals the batch, ranges pairwise disjoint) and every scope is a
nonempty subrange `start < end ≤ batch_size`. -/
def scopesTile (scopes : List (Nat × Nat)) (batchSize : Nat) : Bool :=
  ((List.range batchSize).all fun i =>
    (scopes.countP fun sc => decide (sc.1 ≤ i) && decide (i < sc.2)) = 1) &&
  (scopes.all fun sc => decide (sc.1 < sc.2) && decide (sc.2 ≤ batchSize))

/-- Modelled from the spec: `bootstrap(agents, scopes)` validates the scope
count and the ScopeTable invariant eagerly and raises `ConfigurationError`
before any channel, barrier or worker process is created; only on success are
the bootstrap (channel/barrier/spawn) events produced. -/
def bootstrapValidated (σ β ρ ι : Type) (numAgents : Nat)
    (scopes : List (Nat × Nat)) (batchSize : Nat) :
    Except ConfigurationError (List (Ev σ β ρ ι)) :=
  if scopes.length ≠ numAgents then
    Except.error ⟨scopeCountMsg⟩
  else if ¬ scopesTile scopes batchSize then
    Except.error ⟨tilingMsg⟩
  else
    Except.ok (bootstrapEvs numAgents)

/-- C7 (spec-modelled): whenever the scopes fail to exactly tile
`[0, batch_size)` — a gap, an overlap, an out-of-range or empty scope, or a
scope count different from the agent count — the orchestrator raises
`ConfigurationError` and produces no bootstrap trace at all (in particular it
spawns no worker process); a valid tiling raises nothing and yields the
bootstrap events. -/
theorem c7_scope_validation (σ β ρ ι : Type) (numAgents : Nat)
    (scopes : List (Nat × Nat)) (batchSize : Nat) :
    ((scopes.length ≠ numAgents ∨ scopesTile scopes batchSize = false) →
      (∃ err, bootstrapValidated σ β ρ ι numAgents scopes batchSize =
        Except.error err) ∧
      (∀ evs : List (Ev σ β ρ ι),
        bootstrapValidated σ β ρ ι numAgents scopes batchSize ≠ Except.ok evs)) ∧
    (scopes.length = numAgents → scopesTile scopes batchSize = true →
      bootstrapValidated σ β ρ ι numAgents scopes batchSize =
        Except.ok (bootstrapEvs numAgents)) := by
  constructor
  · intro hbad
    rcases hbad with hbad | hbad
    · constructor
      · exact ⟨⟨scopeCountMsg⟩, by simp [bootstrapValidated, hbad]⟩
      · intro evs
        simp [bootstrapValidated, hbad]
    · by_cases hcnt : scopes.length = numAgents
      · constructor
        · exact ⟨⟨tilingMsg⟩, by simp [bootstrapValidated, hcnt, hbad]⟩
        · intro evs
          simp [bootstrapValidated, hcnt, hbad]
      · constructor
        · exact ⟨⟨scopeCountMsg⟩, by simp [bootstrapValidated, hcnt]⟩
        · intro evs
          simp [bootstrapValidated, hcnt]
  · intro hcnt htile
    simp [bootstrapValidated, hcnt, htile]

/-- C7 witness: a valid tiling of a 4-row batch by two scopes, and an invalid
one with a gap. -/
theorem c7_witness :
    (∃ err, bootstrapValidated Nat Nat Nat Nat 2 [(0, 2), (3, 4)] 4 =
      Except.error err) ∧
    bootstrapValidated Nat Nat Nat Nat 2 [(0, 2), (2, 4)] 4 =
      Except.ok (bootstrapEvs 2) :=
  ⟨((c7_scope_validation Nat Nat Nat Nat 2 [(0, 2), (3, 4)] 4).1
      (Or.inr (by decide))).1,
   (c7_scope_validation Nat Nat Nat Nat 2 [(0, 2), (2, 4)] 4).2 rfl (by decide)⟩

/-! ### Claim C9: configuration merge -/

/-- Configuration values (the defaults use an int and a bool; user values may
also be strings). -/
inductive CfgVal
  | vnat (n : Nat)
  | vbool (b : Bool)
  | vstr (s : String)
deriving DecidableEq

/-- A Python dict with string keys, as an ordered association list with
unique keys. -/
abbrev Cfg := List (String × CfgVal)

/-- Python `d[k]` lookup (first — and for unique keys, only — entry). -/
def cfgFind (d : Cfg) (k : String) : Option CfgVal :=
  (d.find? fun p => p.1 == k).map Prod.snd

/-- Python `d[k] = v`: overwrite the entry in place when the key exists,
otherwise append a new entry. -/
def cfgSet (d : Cfg) (k : String) (v : CfgVal) : Cfg :=
  if d.any fun p => p.1 == k then
    d.map fun p => if p.1 == k then (k, v) else p
  else d ++ [(k, v)]

/-- Python `d.update(other)`: set every key of `other`, in order. -/
def cfgUpdate (d other : Cfg) : Cfg :=
  other.foldl (fun acc p => cfgSet acc p.1 p.2) d

/-- Python `copy.deepcopy` on a config dict: in this pure model a copy is the
same value; the point recorded by `parallelTrainerCfg` is that the update is
applied to the copy, never to the module-level constant itself. -/
def deepcopy (d : Cfg) : Cfg := d

/-- The module-level default configuration, lines 15-18. -/
def PARALLEL_TRAINER_DEFAULT_CONFIG : Cfg :=
  [("timesteps", CfgVal.vnat 100000), ("headless", CfgVal.vbool false)]

/-- `ParallelTrainer.__init__` lines 119-120:
`_cfg = copy.deepcopy(PARALLEL_TRAINER_DEFAULT_CONFIG); _cfg.update(cfg)`. -/
def parallelTrainerCfg (cfg : Cfg) : Cfg :=
  cfgUpdate (deepcopy PARALLEL_TRAINER_DEFAULT_CONFIG) cfg


theorem cfgFind_cons (q : String × CfgVal) (l : Cfg) (k : String) :
    cfgFind (q :: l) k = if q.1 == k then some q.2 else cfgFind l k := by
  by_cases h : (q.1 == k) = true
  · simp [cfgFind, List.find?_cons_of_pos _ h, h]
  · have h' : (q.1 == k) = false := by
      simpa using h
    simp [cfgFind, List.find?_cons_of_neg _ h, h']

theorem cfgFind_mapSet : ∀ (d : Cfg) (a k : String) (v : CfgVal),
    cfgFind (d.map fun p => if p.1 == a then (a, v) else p) k =
      if k = a then (if d.any fun p => p.1 == a then some v else none)
      else cfgFind d k
  | [], a, k, v => by
      by_cases hka : k = a <;> simp [cfgFind, hka]
  | p :: rest, a, k, v => by
      have ih := cfgFind_mapSet rest a k v
      simp only [List.map_cons, List.any_cons]
      by_cases hpa : p.1 = a
      · rw [show (if p.1 == a then (a, v) else p) = (a, v) from by simp [hpa]]
        rw [cfgFind_cons]
        by_cases hka : k = a
        · subst hka
          simp [hpa]
        · rw [if_neg (show ¬ (a == k) = true by simpa using fun h => hka h.symm)]
          rw [ih]
          simp only [if_neg hka]
          rw [cfgFind_cons]
          rw [if_neg (show ¬ (p.1 == k) = true by
            simpa using fun h => hka (h.symm.trans hpa))]
      · rw [show (if p.1 == a then (a, v) else p) = p from by simp [hpa]]
        rw [cfgFind_cons]
        by_cases hpk : p.1 = k
        · have hka : ¬ k = a := fun h => hpa (hpk.trans h)
          rw [if_pos (by simpa using hpk)]
          simp only [if_neg hka]
          rw [cfgFind_cons, if_pos (by simpa using hpk)]
        · rw [if_neg (by simpa using hpk)]
          rw [ih]
          by_cases hka : k = a
          · simp only [if_pos hka, show (p.1 == a) = false from by simpa using hpa,
              Bool.false_or]
          · simp only [if_neg hka]
            rw [cfgFind_cons, if_neg (by simpa using hpk)]

theorem cfgFind_cfgSet (d : Cfg) (a : String) (v : CfgVal) (k : String) :
    cfgFind (cfgSet d a v) k = if k = a then some v else cfgFind d k := by
  by_cases han : (d.any fun p => p.1 == a) = true
  · rw [cfgSet, if_pos han, cfgFind_mapSet]
    by_cases hka : k = a <;> simp [hka, han]
  · rw [cfgSet, if_neg han]
    have hfd : d.find? (fun p => p.1 == a) = none := by
      rw [List.find?_eq_none]
      intro x hx hbeq
      exact han (List.any_eq_true.2 ⟨x, hx, hbeq⟩)
    by_cases hka : k = a
    · subst hka
      rw [if_pos rfl, cfgFind, List.find?_append, hfd]
      simp
    · rw [if_neg hka, cfgFind, List.find?_append]
      have h1 : List.find? (fun p => p.1 == k) [(a, v)] = none := by
        rw [List.find?_cons_of_neg _ (by simpa using fun h => hka h.symm)]
        rfl
      rw [h1]
      simp [cfgFind]

theorem cfgFind_eq_none {d : Cfg} {k : String} (h : k ∉ d.map Prod.fst) :
    cfgFind d k = none := by
  have hfd : d.find? (fun p => p.1 == k) = none := by
    rw [List.find?_eq_none]
    intro x hx hbeq
    exact h (List.mem_map.2 ⟨x, hx, by simpa using hbeq⟩)
  simp [cfgFind, hfd]

/-- Merge semantics of `dict.update` for a user dict with unique keys. -/
theorem cfgFind_cfgUpdate : ∀ (cfg d : Cfg), (cfg.map Prod.fst).Nodup →
    ∀ k, cfgFind (cfgUpdate d cfg) k =
      (cfgFind cfg k).orElse fun _ => cfgFind d k
  | [], d, _, k => by simp [cfgUpdate, cfgFind]
  | (a, v) :: rest, d, hnd, k => by
      have hnd2 := hnd
      rw [List.map_cons, List.nodup_cons] at hnd2
      have hnotin : a ∉ rest.map Prod.fst := hnd2.1
      have hnd' : (rest.map Prod.fst).Nodup := hnd2.2
      have ih := cfgFind_cfgUpdate rest (cfgSet d a v) hnd' k
      have hupd : cfgUpdate d ((a, v) :: rest) = cfgUpdate (cfgSet d a v) rest := rfl
      rw [hupd, ih, cfgFind_cfgSet, cfgFind_cons]
      by_cases hka : k = a
      · subst hka
        simp [cfgFind_eq_none hnotin]
      · simp [hka, show (a == k) = false from by simpa using fun h => hka h.symm]

/-- C9: constructing a `ParallelTrainer` merges the user config over a deep
copy of the defaults `timesteps = 100000, headless = False`: every key of the
user config takes the user's value, every absent key takes the default, and
the module-level `PARALLEL_TRAINER_DEFAULT_CONFIG` itself (updated only
through the copy) keeps its original two entries. -/
theorem c9_cfg_merge (cfg : Cfg) (hnd : (cfg.map Prod.fst).Nodup) :
    (∀ k, cfgFind (parallelTrainerCfg cfg) k =
      (cfgFind cfg k).orElse fun _ => cfgFind PARALLEL_TRAINER_DEFAULT_CONFIG k) ∧
    cfgFind PARALLEL_TRAINER_DEFAULT_CONFIG ("timesteps") =
      some (CfgVal.vnat 100000) ∧
    cfgFind PARALLEL_TRAINER_DEFAULT_CONFIG ("headless") =
      some (CfgVal.vbool false) ∧
    deepcopy PARALLEL_TRAINER_DEFAULT_CONFIG = PARALLEL_TRAINER_DEFAULT_CONFIG ∧
    PARALLEL_TRAINER_DEFAULT_CONFIG =
      [("timesteps", CfgVal.vnat 100000), ("headless", CfgVal.vbool false)] :=
  ⟨fun k => cfgFind_cfgUpdate cfg (deepcopy PARALLEL_TRAINER_DEFAULT_CONFIG) hnd k,
   rfl, rfl, rfl, rfl⟩

/-- C9 witness: a user config overriding `timesteps`. -/
theorem c9_witness :
    cfgFind (parallelTrainerCfg [("timesteps", CfgVal.vnat 500)]) ("timesteps")
      = some (CfgVal.vnat 500) ∧
    cfgFind (parallelTrainerCfg [("timesteps", CfgVal.vnat 500)]) ("headless")
      = some (CfgVal.vbool false) := by
  have h := (c9_cfg_merge [("timesteps", CfgVal.vnat 500)] (by simp)).1
  constructor
  · rw [h ("timesteps")]
    rfl
  · rw [h ("headless")]
    rfl
